import Mathlib

/-!
# Verification of the similarity core of `secure-plagiarism-checker`

Shallow embedding of `src/kmp.py`.  Strings are modelled as lists of
Unicode code points (`List Nat`); all inputs appearing in the claims are
ASCII, and `str.lower` / `str.split` / `str.strip` are modelled on the
ASCII plane (`lowerCode`, `isSpaceCode`).  Python floats are modelled as
exact rationals; `round(x, 2)` is modelled as rounding `x·100` to the
nearest integer (`round2`) — no claim in scope depends on the tie-breaking
direction at a half-cent boundary.  The two `while` loops of the
Knuth–Morris–Pratt implementation are embedded with an explicit fuel
parameter returning `Option`; the totality theorem shows the stated fuel
is never exhausted, which is the meaning of "the loop terminates".
-/

namespace PlagiarismChecker

/-- ASCII whitespace, as recognised by Python `str.split()` / `str.strip()`
on the ASCII plane: space, tab, LF, VT, FF, CR. -/
def isSpaceCode (c : Nat) : Bool :=
  c = 32 || c = 9 || c = 10 || c = 11 || c = 12 || c = 13

/-- Python `str.lower()` on the ASCII plane. -/
def lowerCode (c : Nat) : Nat := if 65 ≤ c && c ≤ 90 then c + 32 else c

/-- `text.lower()`. -/
def lowerStr (s : List Nat) : List Nat := s.map lowerCode

/-- Helper for `splitWs`, carrying the (reversed) current word. -/
def splitWsAux : List Nat → List Nat → List (List Nat)
  | [], acc => if acc = [] then [] else [acc.reverse]
  | c :: cs, acc =>
    if isSpaceCode c then
      if acc = [] then splitWsAux cs [] else acc.reverse :: splitWsAux cs []
    else splitWsAux cs (c :: acc)

/-- Python `text.split()`: split on whitespace runs, discarding empties. -/
def splitWs (s : List Nat) : List (List Nat) := splitWsAux s []

/-- Python `text.split(chr 10)`: split at newlines, keeping empty pieces
(`"".split` gives `[""]`). -/
def splitNl : List Nat → List (List Nat)
  | [] => [[]]
  | c :: cs =>
    if c = 10 then [] :: splitNl cs
    else
      match splitNl cs with
      | [] => [[c]]
      | l :: ls => (c :: l) :: ls

/-- Python `text.strip()`: drop leading and trailing whitespace. -/
def stripWs (s : List Nat) : List Nat :=
  ((s.dropWhile isSpaceCode).reverse.dropWhile isSpaceCode).reverse

/-- Python `sep.join(xs)`. -/
def joinSep (sep : List Nat) : List (List Nat) → List Nat
  | [] => []
  | [w] => w
  | w :: x :: ws => w ++ sep ++ joinSep sep (x :: ws)

/-! ## The Knuth–Morris–Pratt pattern matcher (`compute_lps_array`, `kmp_search`) -/

/-- Proper border lengths of `s`: the `k < |s|` with `s.take k` a suffix of `s`. -/
def bordCands (s : List Nat) : List Nat :=
  (List.range s.length).filter fun k => decide (s.take k <:+ s)

/-- Length of the longest proper border of `s` (`0` for `s = []`). -/
def bord (s : List Nat) : Nat := (bordCands s).foldr max 0

/-- The intended content of the LPS array: entry `k` is the length of the
longest proper prefix of `p.take (k+1)` that is also a suffix of it. -/
def lpsSpec (p : List Nat) : List Nat :=
  (List.range p.length).map fun k => bord (p.take (k + 1))

/-- The `while` loop of `compute_lps_array` (src/kmp.py lines 20-30),
with explicit fuel.  State: partially filled `lps`, current longest
prefix-suffix length `length`, position `i`. -/
def lpsAux (p : List Nat) : Nat → List Nat → Nat → Nat → Option (List Nat)
  | 0, _, _, _ => none
  | fuel + 1, lps, length, i =>
    if i < p.length then
      if p.getD i 0 = p.getD length 0 then
        lpsAux p fuel (lps.set i (length + 1)) (length + 1) (i + 1)
      else if length ≠ 0 then
        lpsAux p fuel lps (lps.getD (length - 1) 0) i
      else
        lpsAux p fuel (lps.set i 0) 0 (i + 1)
    else some lps

/-- `compute_lps_array` (src/kmp.py lines 6-32).  `2·|p| + 1` units of fuel;
the totality theorem shows this never runs out. -/
def compute_lps_array (p : List Nat) : Option (List Nat) :=
  lpsAux p (2 * p.length + 1) (List.replicate p.length 0) 0 1

/-- The second half of the Python loop body of `kmp_search` (src/kmp.py
lines 59-67), after `i`/`j` were optionally advanced together: record a
completed match and fall back, or fall back on a mismatch, or advance
past an unmatched character; returns the next `(i, j, matches)` state. -/
def kmpStep (p t lps : List Nat) (i1 j1 : Nat) (ms : List Nat) : Nat × Nat × List Nat :=
  if j1 = p.length then (i1, lps.getD (j1 - 1) 0, ms ++ [i1 - j1])
  else if i1 < t.length ∧ p.getD j1 0 ≠ t.getD i1 0 then
    if j1 ≠ 0 then (i1, lps.getD (j1 - 1) 0, ms)
    else (i1 + 1, j1, ms)
  else (i1, j1, ms)

/-- The `while` loop of `kmp_search` (src/kmp.py lines 54-67), with explicit
fuel.  One fuel unit is one iteration of the Python loop body: the
simultaneous advance of `i` and `j` on a character match, followed by
`kmpStep`. -/
def kmpLoop (p t lps : List Nat) : Nat → Nat × Nat × List Nat → Option (List Nat)
  | 0, _ => none
  | fuel + 1, (i, j, ms) =>
    if i < t.length then
      if p.getD j 0 = t.getD i 0 then
        kmpLoop p t lps fuel (kmpStep p t lps (i + 1) (j + 1) ms)
      else
        kmpLoop p t lps fuel (kmpStep p t lps i j ms)
    else some ms

/-- `kmp_search` (src/kmp.py lines 34-69), fuelled version. -/
def kmp_searchO (p t : List Nat) : Option (List Nat) :=
  if p = [] ∨ t = [] then some []
  else (compute_lps_array p).bind fun lps => kmpLoop p t lps (2 * t.length + 1) (0, 0, [])

/-- `kmp_search`, as the list the Python function returns. -/
def kmp_search (p t : List Nat) : List Nat := (kmp_searchO p t).getD []

/-- The naive occurrence list: every offset `o` with `t[o : o + |p|] = p`,
in increasing order. -/
def occList (p t : List Nat) : List Nat :=
  (List.range (t.length + 1 - p.length)).filter fun o =>
    decide ((t.drop o).take p.length = p)

/-! ## The scoring strategies -/

/-- The record returned by `plagiarism_score` and the three strategy
functions (fields `similarity_percentage`, `common_segments`, `method`). -/
structure ScoreResult where
  similarity_percentage : ℚ
  common_segments : Nat
  method : String
  deriving DecidableEq

/-- Python `round(x, 2)` modelled over ℚ. -/
def round2 (q : ℚ) : ℚ := round (q * 100) / 100

def wordTag : String := "word_based"
def charTag : String := "char_based"
def lineTag : String := "line_based"
def unknownTag : String := "unknown"

/-- `text.lower().split()`: the token stream of a document. -/
def wordsOf (t : List Nat) : List (List Nat) := splitWs (lowerStr t)

/-- The word-based line view:
`[line.strip().lower() for line in text.strip().split(nl) if line.strip()]`. -/
def wordLinesOf (t : List Nat) : List (List Nat) :=
  ((((splitNl (stripWs t)).map stripWs).filter fun l => l ≠ []).map lowerStr)

/-- The line-based line view (no outer `strip`):
`[line.strip().lower() for line in text.split(nl) if line.strip()]`. -/
def lineLinesOf (t : List Nat) : List (List Nat) :=
  ((((splitNl t).map stripWs).filter fun l => l ≠ []).map lowerStr)

/-- `''.join(text.lower().split())`: the cleaned character stream. -/
def cleanOf (t : List Nat) : List Nat := joinSep [] (splitWs (lowerStr t))

/-- `' '.join(words[i : i+L])`: the space-joined `L`-token n-gram at `i`. -/
def ngramAt (ws : List (List Nat)) (i L : Nat) : List Nat :=
  joinSep [32] ((ws.drop i).take L)

/-- One pass of the greedy n-gram loop of `_word_based_similarity`
(src/kmp.py lines 164-180) at a fixed `seq_length = L`: for each start
`i`, skip the n-gram if it is contained in an already accepted sequence,
otherwise accept it if KMP finds it in the joined second token stream. -/
def seqPass (w2j : List Nat) (ws1 : List (List Nat)) (L : Nat)
    (found : List (List Nat)) : List (List Nat) :=
  (List.range (ws1.length + 1 - L)).foldl
    (fun fnd i =>
      let s := ngramAt ws1 i L
      if fnd.any fun f => decide (s <:+: f) then fnd
      else if kmp_search s w2j ≠ [] then fnd ++ [s]
      else fnd)
    found

/-- All accepted common word sequences of a word-based run, longest
`seq_length` first (src/kmp.py lines 164-180). -/
def wordAccepted (t1 t2 : List Nat) : List (List Nat) :=
  [8, 7, 6, 5, 4, 3].foldl
    (fun fnd L => seqPass (joinSep [32] (wordsOf t2)) (wordsOf t1) L fnd) []

/-- `exact_line_matches` (src/kmp.py lines 149-151). -/
def wordLineMatches (t1 t2 : List Nat) : Nat :=
  (wordLinesOf t1).countP fun l => decide (l ∈ wordLinesOf t2)

/-- `line_similarity` (src/kmp.py lines 154-157). -/
def wordLineSim (t1 t2 : List Nat) : ℚ :=
  if 0 < wordLineMatches t1 t2 then
    ((wordLineMatches t1 t2 : ℚ) /
      ((max (wordLinesOf t1).length (wordLinesOf t2).length : Nat) : ℚ)) * 100
  else 0

/-- `total_common_words` (src/kmp.py line 184). -/
def wordSeqTotal (t1 t2 : List Nat) : Nat :=
  ((wordAccepted t1 t2).map fun s => (splitWs s).length).sum

/-- `avg_length`, the harmonic mean of the token counts (src/kmp.py line 186). -/
def wordAvgLen (t1 t2 : List Nat) : ℚ :=
  2 * ((wordsOf t1).length : ℚ) * ((wordsOf t2).length : ℚ) /
    (((wordsOf t1).length : ℚ) + ((wordsOf t2).length : ℚ))

/-- `sequence_similarity` (src/kmp.py lines 183-189). -/
def wordSeqSim (t1 t2 : List Nat) : ℚ :=
  if wordAccepted t1 t2 ≠ [] then
    min 100 (((wordSeqTotal t1 t2 : ℚ) / wordAvgLen t1 t2) * 100)
  else 0

/-- `len(set(words1) & set(words2))` (src/kmp.py line 192). -/
def wordInter (t1 t2 : List Nat) : Nat :=
  ((wordsOf t1).toFinset ∩ (wordsOf t2).toFinset).card

/-- `len(set(words1) | set(words2))` (src/kmp.py line 193). -/
def wordUnion (t1 t2 : List Nat) : Nat :=
  ((wordsOf t1).toFinset ∪ (wordsOf t2).toFinset).card

/-- `word_similarity` (src/kmp.py line 194). -/
def wordOverlapSim (t1 t2 : List Nat) : ℚ :=
  if wordUnion t1 t2 ≠ 0 then ((wordInter t1 t2 : ℚ) / (wordUnion t1 t2 : ℚ)) * 100 else 0

/-- `final_similarity` (src/kmp.py lines 198-201). -/
def wordFinalSim (t1 t2 : List Nat) : ℚ :=
  if 0 < wordLineMatches t1 t2 then
    wordLineSim t1 t2 * (7 / 10) + wordSeqSim t1 t2 * (3 / 10)
  else max (wordSeqSim t1 t2) (wordOverlapSim t1 t2)

/-- `_word_based_similarity` (src/kmp.py lines 133-207). -/
def word_based_similarity (t1 t2 : List Nat) : ScoreResult :=
  if wordsOf t1 = [] ∨ wordsOf t2 = [] then ⟨0, 0, wordTag⟩
  else ⟨round2 (min (wordFinalSim t1 t2) 100), (wordAccepted t1 t2).length, wordTag⟩

/-- The substrings `s1[i : j]` enumerated by the window loops of
`_char_based_similarity` (src/kmp.py lines 227-234), in order:
`i` ranges over `range(len(s1) - 5 + 1)` and `j` over
`range(i + 5, min(i + min(50, len(s1)), len(s1) + 1))`. -/
def charWindows (s1 : List Nat) : List (List Nat) :=
  (List.range (s1.length + 1 - 5)).map
    (fun i =>
      (List.range (min (i + min 50 s1.length) (s1.length + 1) - (i + 5))).map
        fun d => (s1.drop i).take (d + 5))
  |>.flatten

/-- The enumerated substrings of `s1` that occur in `s2` (every match is
appended to `common_substrings`, duplicates included). -/
def charCommonSubs (s1 s2 : List Nat) : List (List Nat) :=
  (charWindows s1).filter fun sub => decide (sub <:+: s2)

/-- The running `max_length` of the char-based run. -/
def charMaxLen (s1 s2 : List Nat) : Nat :=
  (charCommonSubs s1 s2).foldl (fun m sub => max m sub.length) 0

/-- The internal swap `if len(s1) > len(s2): s1, s2 = s2, s1`
(src/kmp.py lines 221-222): the designated shorter cleaned text. -/
def charShorter (t1 t2 : List Nat) : List Nat :=
  if (cleanOf t2).length < (cleanOf t1).length then cleanOf t2 else cleanOf t1

/-- The designated longer cleaned text after the internal swap. -/
def charLonger (t1 t2 : List Nat) : List Nat :=
  if (cleanOf t2).length < (cleanOf t1).length then cleanOf t1 else cleanOf t2

/-- `max_common_length` (src/kmp.py line 240). -/
def charMax (t1 t2 : List Nat) : Nat :=
  charMaxLen (charShorter t1 t2) (charLonger t1 t2)

/-- `similarity` of the char-based strategy (src/kmp.py lines 242-246). -/
def charSim (t1 t2 : List Nat) : ℚ :=
  if 0 < charMax t1 t2 then
    ((charMax t1 t2 : ℚ) / ((max (cleanOf t1).length (cleanOf t2).length : Nat) : ℚ)) * 100
  else 0

/-- `_char_based_similarity` (src/kmp.py lines 209-252). -/
def char_based_similarity (t1 t2 : List Nat) : ScoreResult :=
  if cleanOf t1 = [] ∨ cleanOf t2 = [] then ⟨0, 0, charTag⟩
  else ⟨round2 (charSim t1 t2),
    (charCommonSubs (charShorter t1 t2) (charLonger t1 t2)).dedup.length, charTag⟩

/-- `common_lines` (src/kmp.py lines 262-267). -/
def lineCommon (t1 t2 : List Nat) : Nat :=
  (lineLinesOf t1).countP fun l => decide (kmp_search l (joinSep [10] (lineLinesOf t2)) ≠ [])

/-- `similarity` of the line-based strategy (src/kmp.py lines 269-270). -/
def lineSim (t1 t2 : List Nat) : ℚ :=
  if 0 < max (lineLinesOf t1).length (lineLinesOf t2).length then
    ((lineCommon t1 t2 : ℚ) /
      ((max (lineLinesOf t1).length (lineLinesOf t2).length : Nat) : ℚ)) * 100
  else 0

/-- `_line_based_similarity` (src/kmp.py lines 254-276). -/
def line_based_similarity (t1 t2 : List Nat) : ScoreResult :=
  if lineLinesOf t1 = [] ∨ lineLinesOf t2 = [] then ⟨0, 0, lineTag⟩
  else ⟨round2 (lineSim t1 t2), lineCommon t1 t2, lineTag⟩

/-- `plagiarism_score` (src/kmp.py lines 109-131). -/
def plagiarism_score (t1 t2 : List Nat) (method : String) : ScoreResult :=
  if t1 = [] ∨ t2 = [] then ⟨0, 0, method⟩ else
  if method = wordTag then word_based_similarity t1 t2
  else if method = charTag then char_based_similarity t1 t2
  else if method = lineTag then line_based_similarity t1 t2
  else word_based_similarity t1 t2

/-! ## Generic list helpers -/

theorem le_foldr_max {l : List Nat} {x : Nat} (h : x ∈ l) : x ≤ l.foldr max 0 := by
  induction l with
  | nil => cases h
  | cons a l ih =>
    rcases List.mem_cons.1 h with rfl | h
    · exact le_max_left _ _
    · exact le_trans (ih h) (le_max_right _ _)

theorem foldr_max_mem (l : List Nat) : l.foldr max 0 = 0 ∨ l.foldr max 0 ∈ l := by
  induction l with
  | nil => exact Or.inl rfl
  | cons a l ih =>
    rcases max_choice a (l.foldr max 0) with h | h
    · exact Or.inr (by simp [h])
    · rcases ih with h0 | hm
      · exact Or.inl (by rw [List.foldr_cons, h, h0])
      · exact Or.inr (by simp [h]; exact Or.inr hm)

theorem foldl_congr_fixed {α β : Type} {f : α → β → α} {a : α} {l : List β}
    (h : ∀ x ∈ l, f a x = a) : l.foldl f a = a := by
  induction l with
  | nil => rfl
  | cons b l ih =>
    rw [List.foldl_cons, h b (List.mem_cons_self _ _)]
    exact ih fun x hx => h x (List.mem_cons_of_mem _ hx)

/-! ## Suffix and border lemmas -/

theorem take_succ_getD {l : List Nat} {k : Nat} (h : k < l.length) :
    l.take (k + 1) = l.take k ++ [l.getD k 0] := by
  rw [List.take_succ, List.getElem?_eq_getElem h, List.getD_eq_getElem _ _ h]
  rfl

theorem concat_suffix_concat_iff {a b : List Nat} {x y : Nat} :
    a ++ [x] <:+ b ++ [y] ↔ a <:+ b ∧ x = y := by
  constructor
  · rintro ⟨c, hc⟩
    rw [← List.append_assoc] at hc
    rcases List.append_inj' hc rfl with ⟨h1, h2⟩
    exact ⟨⟨c, h1⟩, by injection h2⟩
  · rintro ⟨⟨c, hc⟩, rfl⟩
    exact ⟨c, by rw [← List.append_assoc, hc]⟩

theorem suffix_of_suffix_length_le {a b c : List Nat} (ha : a <:+ c) (hb : b <:+ c)
    (h : a.length ≤ b.length) : a <:+ b := by
  rw [← List.reverse_prefix] at ha hb ⊢
  exact List.prefix_of_prefix_length_le ha hb (by simpa using h)

theorem length_take_of_le {l : List Nat} {k : Nat} (h : k ≤ l.length) :
    (l.take k).length = k := by
  simp [List.length_take, Nat.min_eq_left h]

theorem take_take_of_le {l : List Nat} {k m : Nat} (h : k ≤ m) :
    (l.take m).take k = l.take k := by
  rw [List.take_take, Nat.min_eq_left h]

theorem bord_lt {s : List Nat} (h : s ≠ []) : bord s < s.length := by
  rcases foldr_max_mem (bordCands s) with h0 | hm
  · rw [bord, h0]
    exact List.length_pos.2 h
  · rcases List.mem_filter.1 hm with ⟨hr, _⟩
    exact List.mem_range.1 hr

theorem bord_suffix (s : List Nat) : s.take (bord s) <:+ s := by
  rcases foldr_max_mem (bordCands s) with h0 | hm
  · rw [bord, h0]
    simp
  · rcases List.mem_filter.1 hm with ⟨_, hd⟩
    exact of_decide_eq_true hd

theorem bord_max {s : List Nat} {k : Nat} (h1 : k < s.length) (h2 : s.take k <:+ s) :
    k ≤ bord s :=
  le_foldr_max (List.mem_filter.2 ⟨List.mem_range.2 h1, decide_eq_true h2⟩)

/-- Extension/decomposition of a prefix-suffix overlap by one character:
for `1 ≤ ℓ ≤ |p|` and `i < |t|`, the length-`ℓ` prefix of `p` is a suffix
of `t.take (i+1)` iff the length-`(ℓ-1)` prefix is a suffix of `t.take i`
and the next characters agree. -/
theorem take_suffix_succ_iff {p t : List Nat} {l i : Nat} (hl1 : 1 ≤ l)
    (hlp : l ≤ p.length) (hi : i < t.length) :
    p.take l <:+ t.take (i + 1) ↔
      p.take (l - 1) <:+ t.take i ∧ p.getD (l - 1) 0 = t.getD i 0 := by
  have hl : l - 1 < p.length := lt_of_lt_of_le (Nat.sub_lt hl1 one_pos) hlp
  have hp : p.take l = p.take (l - 1) ++ [p.getD (l - 1) 0] := by
    rw [← take_succ_getD hl, Nat.sub_add_cancel hl1]
  rw [hp, take_succ_getD hi, concat_suffix_concat_iff]

theorem getD_set_self {l : List Nat} {i v : Nat} (h : i < l.length) :
    (l.set i v).getD i 0 = v := by
  simp [List.getD_eq_getElem?_getD, List.getElem?_set_self, h]

theorem getD_set_ne {l : List Nat} {i k v : Nat} (h : k ≠ i) :
    (l.set i v).getD k 0 = l.getD k 0 := by
  simp [List.getD_eq_getElem?_getD, List.getElem?_set_ne (Ne.symm h)]

/-! ## Correctness of the `compute_lps_array` loop -/

/-- Invariant-preservation of the LPS loop: from any state satisfying the
loop invariant (entries below `i` already correct, `length` a border
length of `p.take i` such that no longer border of `p.take i` extends by
`p[i]`), with enough fuel the loop returns an array whose every entry `k`
is the longest proper border length of `p.take (k+1)`. -/
theorem lpsAux_correct (p : List Nat) (fuel : Nat) : ∀ lps length i,
    1 ≤ i → i ≤ p.length → lps.length = p.length → length < i →
    (∀ k, k < i → lps.getD k 0 = bord (p.take (k + 1))) →
    p.take length <:+ p.take i →
    (∀ l, length < l → l < i → p.take l <:+ p.take i → p.getD l 0 ≠ p.getD i 0) →
    2 * (p.length - i) + length < fuel →
    ∃ r, lpsAux p fuel lps length i = some r ∧ r.length = p.length ∧
      ∀ k, k < p.length → r.getD k 0 = bord (p.take (k + 1)) := by
  induction fuel with
  | zero => intro lps length i _ _ _ _ _ _ _ hfuel; omega
  | succ fuel ih =>
    intro lps length i h1 hn hlen hL hpre hsuf hmax hfuel
    rw [lpsAux]
    by_cases hi : i < p.length
    · rw [if_pos hi]
      have hLp : length < p.length := lt_trans hL hi
      have hi1n : i + 1 ≤ p.length := hi
      have hlen1 : (p.take (i + 1)).length = i + 1 := length_take_of_le hi1n
      have htne : p.take (i + 1) ≠ [] := by
        intro h
        rw [h] at hlen1
        simp at hlen1
      by_cases hc : p.getD i 0 = p.getD length 0
      · rw [if_pos hc]
        -- match branch: p[i] = p[length]; the new entry is length + 1
        have hext : p.take (length + 1) <:+ p.take (i + 1) := by
          rw [take_succ_getD hLp, take_succ_getD hi]
          exact concat_suffix_concat_iff.2 ⟨hsuf, hc.symm⟩
        have hnob : ∀ l, length + 1 < l → l < i + 1 → ¬ p.take l <:+ p.take (i + 1) := by
          intro l hgt hlt hsl
          have h1l : 1 ≤ l := by omega
          have hln : l ≤ p.length := by omega
          rcases (take_suffix_succ_iff h1l hln hi).1 hsl with ⟨hs, he⟩
          exact hmax (l - 1) (by omega) (by omega) hs he
        have hbord : bord (p.take (i + 1)) = length + 1 := by
          have hle : bord (p.take (i + 1)) ≤ length + 1 := by
            by_contra hgt
            push_neg at hgt
            have hblt : bord (p.take (i + 1)) < i + 1 := by
              have := bord_lt htne
              omega
            have hbs := bord_suffix (p.take (i + 1))
            rw [take_take_of_le (le_of_lt hblt)] at hbs
            exact hnob _ hgt hblt hbs
          have hge : length + 1 ≤ bord (p.take (i + 1)) := by
            apply bord_max
            · omega
            · rw [take_take_of_le (by omega : length + 1 ≤ i + 1)]
              exact hext
          omega
        apply ih (lps.set i (length + 1)) (length + 1) (i + 1) (by omega) hi1n
          (by rw [List.length_set]; exact hlen) (by omega)
        · intro k hk
          rcases Nat.lt_or_ge k i with hki | hki
          · rw [getD_set_ne (by omega)]
            exact hpre k hki
          · have : k = i := by omega
            subst this
            rw [getD_set_self (by rw [hlen]; exact hi), hbord]
        · exact hext
        · intro l hgt hlt hsl
          exact absurd hsl (hnob l hgt hlt)
        · omega
      · rw [if_neg hc]
        by_cases hl0 : length ≠ 0
        · rw [if_pos hl0]
          -- fallback branch: length := lps[length - 1]
          have hl1 : 1 ≤ length := by omega
          have hpe : lps.getD (length - 1) 0 = bord (p.take length) := by
            have := hpre (length - 1) (by omega)
            rwa [Nat.sub_add_cancel hl1] at this
          have hlne : p.take length ≠ [] := by
            intro h
            have := length_take_of_le (by omega : length ≤ p.length)
            rw [h] at this
            simp at this
            omega
          have hbl : bord (p.take length) < length := by
            have := bord_lt hlne
            rwa [length_take_of_le (by omega : length ≤ p.length)] at this
          have hsufb : p.take (bord (p.take length)) <:+ p.take i := by
            have hbs := bord_suffix (p.take length)
            rw [take_take_of_le (le_of_lt hbl)] at hbs
            exact hbs.trans hsuf
          apply ih lps (lps.getD (length - 1) 0) i h1 hn hlen
            (by rw [hpe]; omega) hpre (by rw [hpe]; exact hsufb)
          · rw [hpe]
            intro l hgt hlt hsl
            rcases lt_trichotomy l length with hll | hll | hll
            · exfalso
              have hsub : p.take l <:+ p.take length := by
                apply suffix_of_suffix_length_le hsl hsuf
                rw [length_take_of_le (by omega : l ≤ p.length),
                  length_take_of_le (by omega : length ≤ p.length)]
                omega
              have : l ≤ bord (p.take length) := by
                apply bord_max
                · rw [length_take_of_le (by omega : length ≤ p.length)]
                  exact hll
                · rw [take_take_of_le (le_of_lt hll)]
                  exact hsub
              omega
            · subst hll
              exact fun h => hc h.symm
            · exact hmax l hll hlt hsl
          · rw [hpe]
            omega
        · rw [if_neg hl0]
          push_neg at hl0
          subst hl0
          -- mismatch at length = 0: entry i is 0
          have hnob0 : ∀ l, 0 < l → l < i + 1 → ¬ p.take l <:+ p.take (i + 1) := by
            intro l h0 hlt hsl
            have h1l : 1 ≤ l := h0
            have hln : l ≤ p.length := by omega
            rcases (take_suffix_succ_iff h1l hln hi).1 hsl with ⟨hs, he⟩
            rcases Nat.eq_zero_or_pos (l - 1) with hz | hpos
            · rw [hz] at he
              exact hc he.symm
            · exact hmax (l - 1) hpos (by omega) hs he
          have hbord0 : bord (p.take (i + 1)) = 0 := by
            by_contra hb
            have hblt : bord (p.take (i + 1)) < i + 1 := by
              have := bord_lt htne
              omega
            have hbs := bord_suffix (p.take (i + 1))
            rw [take_take_of_le (le_of_lt hblt)] at hbs
            exact hnob0 _ (Nat.pos_of_ne_zero hb) hblt hbs
          apply ih (lps.set i 0) 0 (i + 1) (by omega) hi1n
            (by rw [List.length_set]; exact hlen) (by omega)
          · intro k hk
            rcases Nat.lt_or_ge k i with hki | hki
            · rw [getD_set_ne (by omega)]
              exact hpre k hki
            · have : k = i := by omega
              subst this
              rw [getD_set_self (by rw [hlen]; exact hi), hbord0]
          · simp
          · intro l hgt hlt hsl
            exact absurd hsl (hnob0 l hgt hlt)
          · omega
    · rw [if_neg hi]
      have : i = p.length := by omega
      subst this
      exact ⟨lps, rfl, hlen, fun k hk => hpre k hk⟩

theorem bord_of_length_le_one {s : List Nat} (h : s.length = 1) : bord s = 0 := by
  have hne : s ≠ [] := by
    intro hs
    rw [hs] at h
    simp at h
  have := bord_lt hne
  omega

/-- `compute_lps_array` terminates within its fuel and computes exactly the
longest-proper-border table `lpsSpec`. -/
theorem compute_lps_array_eq (p : List Nat) : compute_lps_array p = some (lpsSpec p) := by
  rcases List.eq_nil_or_concat p with rfl | ⟨_, _, _⟩
  · rfl
  · have hp : p ≠ [] := by
      rename_i l a h
      subst h
      simp
    have hn : 1 ≤ p.length := List.length_pos.2 hp
    obtain ⟨r, hr, hrlen, hrk⟩ :=
      lpsAux_correct p (2 * p.length + 1) (List.replicate p.length 0) 0 1
        le_rfl hn (by simp) one_pos
        (by
          intro k hk
          have : k = 0 := by omega
          subst this
          have h0 : (List.replicate p.length 0).getD 0 0 = 0 := by
            rw [List.getD_eq_getElem?_getD, List.getElem?_replicate,
              if_pos (by omega : 0 < p.length)]
            rfl
          rw [h0, bord_of_length_le_one (length_take_of_le hn)])
        (by simp)
        (by intro l h1 h2 _; omega)
        (by omega)
    rw [compute_lps_array, hr]
    congr 1
    apply List.ext_getElem
    · rw [hrlen, lpsSpec]
      simp
    · intro k hk1 hk2
      simp only [lpsSpec, List.getElem_map, List.getElem_range]
      rw [← List.getD_eq_getElem r 0 hk1, hrk k (by rwa [hrlen] at hk1)]

/-! ## Correctness of the `kmp_search` loop -/

theorem lpsSpec_getD {p : List Nat} {k : Nat} (h : k < p.length) :
    (lpsSpec p).getD k 0 = bord (p.take (k + 1)) := by
  rw [lpsSpec, List.getD_eq_getElem?_getD, List.getElem?_map, List.getElem?_range h]
  rfl

/-- An occurrence of `p` ending exactly at position `i` of `t` is the same
thing as `p` being a suffix of `t.take i`. -/
theorem occ_iff_suffix {p t : List Nat} {o i : Nat} (hi : i ≤ t.length)
    (ho : o + p.length = i) :
    (t.drop o).take p.length = p ↔ p <:+ t.take i := by
  rw [List.suffix_iff_eq_drop, length_take_of_le hi]
  have h1 : i - p.length = o := by omega
  rw [h1, List.drop_take]
  have h2 : i - o = p.length := by omega
  rw [h2]
  exact eq_comm

/-- Invariant preservation for the KMP search loop: from any state where
`p.take j` is a suffix of the scanned text, no longer prefix of `p` both
ends at the scan point and extends by the next character, and `ms` holds
exactly the occurrences that end at or before the scan point, the loop
returns exactly the naive occurrence list. -/
theorem kmpLoop_correct (p t : List Nat) (hp : p ≠ []) (fuel : Nat) : ∀ i j ms,
    j < p.length → j ≤ i → i ≤ t.length →
    p.take j <:+ t.take i →
    (∀ l, j < l → l < p.length → p.take l <:+ t.take i → i < t.length →
      p.getD l 0 ≠ t.getD i 0) →
    ms = (List.range (i + 1 - p.length)).filter
      (fun o => decide ((t.drop o).take p.length = p)) →
    2 * (t.length - i) + j < fuel →
    kmpLoop p t (lpsSpec p) fuel (i, j, ms) = some (occList p t) := by
  induction fuel with
  | zero => intro i j ms _ _ _ _ _ _ hfuel; omega
  | succ fuel ih =>
    intro i j ms hj hji hin hsuf hK4 hms hfuel
    rw [kmpLoop]
    by_cases hi : i < t.length
    · rw [if_pos hi]
      by_cases hc : p.getD j 0 = t.getD i 0
      · rw [if_pos hc]
        -- the matching-character advance to (i+1, j+1)
        have hF1 : p.take (j + 1) <:+ t.take (i + 1) := by
          apply (take_suffix_succ_iff (by omega) (by omega) hi).2
          rw [Nat.add_sub_cancel]
          exact ⟨hsuf, hc⟩
        have hF2 : ∀ l, j + 1 < l → l ≤ p.length → ¬ p.take l <:+ t.take (i + 1) := by
          intro l h1 h2 hsl
          rcases (take_suffix_succ_iff (by omega) h2 hi).1 hsl with ⟨hs, he⟩
          exact hK4 (l - 1) (by omega) (by omega) hs hi he
        by_cases hjm : j + 1 = p.length
        · -- a full match completes at i+1
          rw [kmpStep, if_pos hjm]
          have hgd : (lpsSpec p).getD (j + 1 - 1) 0 = bord p := by
            rw [Nat.add_sub_cancel, lpsSpec_getD hj]
            rw [show j + 1 = p.length from hjm, List.take_length]
          rw [hgd]
          have hpsuf : p <:+ t.take (i + 1) := by
            have := hF1
            rwa [hjm, List.take_length] at this
          have hb : bord p < p.length := bord_lt hp
          apply ih (i + 1) (bord p) _ hb (by omega) hi
          · exact (bord_suffix p).trans hpsuf
          · intro l hgt hlt hsl _
            exfalso
            have hsub : p.take l <:+ p := by
              apply suffix_of_suffix_length_le hsl hpsuf
              rw [length_take_of_le (le_of_lt hlt)]
              omega
            have := bord_max hlt hsub
            omega
          · have hm1 : p.length ≤ i + 1 := by omega
            have he : i + 1 - (j + 1) = i + 1 - p.length := by omega
            have hr : i + 1 + 1 - p.length = (i + 1 - p.length) + 1 := by omega
            rw [hms, he, hr, List.range_succ, List.filter_append]
            have hocc : (t.drop (i + 1 - p.length)).take p.length = p := by
              rw [occ_iff_suffix (by omega) (by omega : i + 1 - p.length + p.length = i + 1)]
              exact hpsuf
            simp [hocc]
          · omega
        · -- no full match; the Python elif decides the next state
          rw [kmpStep, if_neg hjm]
          have hms1 : (List.range (i + 1 + 1 - p.length)).filter
              (fun o => decide ((t.drop o).take p.length = p)) = ms := by
            rcases Nat.lt_or_ge (i + 1) p.length with hlt | hge
            · rw [hms]
              have e1 : i + 1 + 1 - p.length = 0 := by omega
              have e2 : i + 1 - p.length = 0 := by omega
              rw [e1, e2]
            · have hr : i + 1 + 1 - p.length = (i + 1 - p.length) + 1 := by omega
              rw [hr, List.range_succ, List.filter_append, hms]
              have hnocc : ¬ (t.drop (i + 1 - p.length)).take p.length = p := by
                rw [occ_iff_suffix (by omega)
                  (by omega : i + 1 - p.length + p.length = i + 1)]
                have := hF2 p.length (by omega) le_rfl
                rwa [List.take_length] at this
              simp [hnocc]
          by_cases hcb : i + 1 < t.length ∧ p.getD (j + 1) 0 ≠ t.getD (i + 1) 0
          · rw [if_pos hcb]
            rw [if_pos (by omega : j + 1 ≠ 0)]
            have hgd : (lpsSpec p).getD (j + 1 - 1) 0 = bord (p.take (j + 1)) := by
              rw [Nat.add_sub_cancel, lpsSpec_getD hj]
            rw [hgd]
            have hlt1 : (p.take (j + 1)).length = j + 1 := length_take_of_le (by omega)
            have htne : p.take (j + 1) ≠ [] := by
              intro h
              rw [h] at hlt1
              simp at hlt1
            have hb : bord (p.take (j + 1)) < j + 1 := by
              have := bord_lt htne
              omega
            apply ih (i + 1) (bord (p.take (j + 1))) _ (by omega) (by omega) hi
            · have hbs := bord_suffix (p.take (j + 1))
              rw [take_take_of_le (le_of_lt hb)] at hbs
              exact hbs.trans hF1
            · intro l hgt hlt hsl _
              rcases lt_trichotomy l (j + 1) with hlj | hlj | hlj
              · exfalso
                have hsub : p.take l <:+ p.take (j + 1) := by
                  apply suffix_of_suffix_length_le hsl hF1
                  rw [length_take_of_le (le_of_lt hlt), hlt1]
                  omega
                have : l ≤ bord (p.take (j + 1)) := by
                  apply bord_max
                  · rw [hlt1]
                    exact hlj
                  · rw [take_take_of_le (le_of_lt hlj)]
                    exact hsub
                omega
              · subst hlj
                exact hcb.2
              · exact absurd hsl (hF2 l hlj (le_of_lt hlt))
            · rw [hms1]
            · omega
          · rw [if_neg hcb]
            apply ih (i + 1) (j + 1) _ (by omega) (by omega) hi hF1
            · intro l hgt hlt hsl _
              exact absurd hsl (hF2 l hgt (le_of_lt hlt))
            · rw [hms1]
            · omega
      · rw [if_neg hc]
        -- mismatch without advance
        rw [kmpStep, if_neg (by omega : ¬ j = p.length)]
        rw [if_pos ⟨hi, fun h => hc h⟩]
        by_cases hj0 : j ≠ 0
        · rw [if_pos hj0]
          have hgd : (lpsSpec p).getD (j - 1) 0 = bord (p.take j) := by
            rw [lpsSpec_getD (by omega : j - 1 < p.length), Nat.sub_add_cancel (by omega)]
          rw [hgd]
          have hlt1 : (p.take j).length = j := length_take_of_le (by omega)
          have htne : p.take j ≠ [] := by
            intro h
            rw [h] at hlt1
            simp at hlt1
            omega
          have hb : bord (p.take j) < j := by
            have := bord_lt htne
            omega
          apply ih i (bord (p.take j)) _ (by omega) (by omega) hin
          · have hbs := bord_suffix (p.take j)
            rw [take_take_of_le (le_of_lt hb)] at hbs
            exact hbs.trans hsuf
          · intro l hgt hlt hsl hitn
            rcases lt_trichotomy l j with hlj | hlj | hlj
            · exfalso
              have hsub : p.take l <:+ p.take j := by
                apply suffix_of_suffix_length_le hsl hsuf
                rw [length_take_of_le (le_of_lt hlt), hlt1]
                omega
              have : l ≤ bord (p.take j) := by
                apply bord_max
                · rw [hlt1]
                  exact hlj
                · rw [take_take_of_le (le_of_lt hlj)]
                  exact hsub
              omega
            · subst hlj
              exact fun h => hc h
            · exact hK4 l hlj hlt hsl hitn
          · exact hms
          · omega
        · rw [if_neg hj0]
          push_neg at hj0
          subst hj0
          have hG : ∀ l, 0 < l → l ≤ p.length → ¬ p.take l <:+ t.take (i + 1) := by
            intro l h0 hlm hsl
            rcases (take_suffix_succ_iff h0 hlm hi).1 hsl with ⟨hs, he⟩
            rcases Nat.eq_zero_or_pos (l - 1) with hz | hpos
            · rw [hz] at he
              exact hc he
            · exact hK4 (l - 1) hpos (by omega) hs hi he
          apply ih (i + 1) 0 _ hj (by omega) hi (by simp)
          · intro l hgt hlt hsl _
            exact absurd hsl (hG l hgt (le_of_lt hlt))
          · rcases Nat.lt_or_ge (i + 1) p.length with hlt | hge
            · rw [hms]
              have e1 : i + 1 + 1 - p.length = 0 := by omega
              have e2 : i + 1 - p.length = 0 := by omega
              rw [e1, e2]
            · have hr : i + 1 + 1 - p.length = (i + 1 - p.length) + 1 := by omega
              rw [hr, List.range_succ, List.filter_append, hms]
              have hnocc : ¬ (t.drop (i + 1 - p.length)).take p.length = p := by
                rw [occ_iff_suffix (by omega)
                  (by omega : i + 1 - p.length + p.length = i + 1)]
                have := hG p.length (List.length_pos.2 hp) le_rfl
                rwa [List.take_length] at this
              simp [hnocc]
          · omega
    · rw [if_neg hi]
      have hieq : i = t.length := by omega
      rw [hms, hieq, occList]

/-- For non-empty pattern and text, the fuelled `kmp_search` returns
exactly the naive occurrence list. -/
theorem kmp_searchO_eq {p t : List Nat} (hp : p ≠ []) (ht : t ≠ []) :
    kmp_searchO p t = some (occList p t) := by
  rw [kmp_searchO, if_neg (by simp [hp, ht]), compute_lps_array_eq]
  show kmpLoop p t (lpsSpec p) (2 * t.length + 1) (0, 0, []) = some (occList p t)
  apply kmpLoop_correct p t hp (2 * t.length + 1) 0 0 []
    (List.length_pos.2 hp) le_rfl (Nat.zero_le _) (by simp)
  · intro l h0 hl hsl _
    exfalso
    rw [List.take_zero, List.suffix_nil] at hsl
    have := length_take_of_le (le_of_lt hl)
    rw [hsl] at this
    simp at this
    omega
  · have : 0 + 1 - p.length = 0 := by
      have := List.length_pos.2 hp
      omega
    rw [this]
    rfl
  · omega

theorem kmp_search_eq {p t : List Nat} (hp : p ≠ []) (ht : t ≠ []) :
    kmp_search p t = occList p t := by
  rw [kmp_search, kmp_searchO_eq hp ht]
  rfl

theorem kmp_search_nil {p t : List Nat} (h : p = [] ∨ t = []) :
    kmp_search p t = [] := by
  rw [kmp_search, kmp_searchO, if_pos h]
  rfl

theorem occList_sorted (p t : List Nat) : (occList p t).Pairwise (· < ·) :=
  (List.pairwise_lt_range _).filter _

theorem mem_occList {p t : List Nat} (hp : p ≠ []) {o : Nat} :
    o ∈ occList p t ↔ (t.drop o).take p.length = p := by
  constructor
  · intro h
    exact of_decide_eq_true (List.mem_filter.1 h).2
  · intro h
    apply List.mem_filter.2
    refine ⟨List.mem_range.2 ?_, decide_eq_true h⟩
    have hlen := congrArg List.length h
    simp [List.length_take, List.length_drop] at hlen
    have hple := List.length_pos.2 hp
    omega

/-! ## Claim C1 and claim C10 -/

/-- C1: for all strings `P` and `T`, if either is empty `kmp_search`
returns the empty list as a normal value; otherwise it returns the
strictly ascending list of exactly those offsets `o` with
`T[o : o + |P|] = P`, including every overlapping occurrence. -/
theorem C1_kmp_search_correct (p t : List Nat) :
    ((p = [] ∨ t = []) → kmp_search p t = []) ∧
    (p ≠ [] → t ≠ [] →
      kmp_search p t = occList p t ∧
      (kmp_search p t).Pairwise (· < ·) ∧
      ∀ o, o ∈ kmp_search p t ↔ (t.drop o).take p.length = p) := by
  constructor
  · exact kmp_search_nil
  · intro hp ht
    rw [kmp_search_eq hp ht]
    exact ⟨rfl, occList_sorted p t, fun o => mem_occList hp⟩

/-- Witness for C1 at the claim's concrete example:
`kmp_search "aa" "aaaa" = [0, 1, 2]`. -/
theorem C1_kmp_search_correct_witness :
    kmp_search [97, 97] [97, 97, 97, 97] = [0, 1, 2] ∧
    kmp_search [97, 97] [97, 97, 97, 97] = occList [97, 97] [97, 97, 97, 97] := by
  refine ⟨by decide, ?_⟩
  exact ((C1_kmp_search_correct [97, 97] [97, 97, 97, 97]).2
    (by decide) (by decide)).1

/-- C10: `compute_lps_array` and `kmp_search` terminate and return a value
on every input: the fuelled embeddings of the two `while` loops (including
the inner `length = lps[length - 1]` fallback) never exhaust their stated
fuel. -/
theorem C10_operations_total (p t : List Nat) :
    (compute_lps_array p).isSome ∧ (kmp_searchO p t).isSome := by
  constructor
  · rw [compute_lps_array_eq]
    rfl
  · by_cases h : p = [] ∨ t = []
    · rw [kmp_searchO, if_pos h]
      rfl
    · push_neg at h
      rw [kmp_searchO_eq h.1 h.2]
      rfl

/-! ## Claim C8 -/

/-- C8 counterexample: at an empty first text the claim fails — the
early-return record echoes the given method tag, so the `method` field
under "unknown" differs from the one under "word_based". -/
theorem C8_counterexample :
    plagiarism_score [] [120] unknownTag ≠ plagiarism_score [] [120] wordTag := by
  decide

/-- C8 (amended): for non-empty input texts, `plagiarism_score` under the
unrecognized tag "unknown" returns a record identical in every field to
the one under "word_based"; on empty inputs the two results agree except
that the `method` field echoes the given tag. -/
theorem C8_unknown_falls_back (t1 t2 : List Nat) (h1 : t1 ≠ []) (h2 : t2 ≠ []) :
    plagiarism_score t1 t2 unknownTag = plagiarism_score t1 t2 wordTag := by
  have hne : ¬(t1 = [] ∨ t2 = []) := by simp [h1, h2]
  have huw : ¬ unknownTag = wordTag := by decide
  have huc : ¬ unknownTag = charTag := by decide
  have hul : ¬ unknownTag = lineTag := by decide
  rw [plagiarism_score, plagiarism_score, if_neg hne, if_neg hne,
    if_neg huw, if_neg huc, if_neg hul, if_pos rfl]

/-- Witness for C8 at concrete non-empty inputs. -/
theorem C8_unknown_falls_back_witness :
    plagiarism_score [120] [121] unknownTag = plagiarism_score [120] [121] wordTag :=
  C8_unknown_falls_back [120] [121] (by decide) (by decide)

/-! ## Claim C3 -/

/-- C3: for texts each having at least one non-empty line, line_based
similarity is `round(100 · m / max(lineCount A, lineCount B), 2)` where
`m` is the number of A's trimmed, case-folded, non-empty lines that the
pattern matcher finds at least once inside B's lines joined with a
newline separator, and `common_segments = m`. -/
theorem C3_line_based (t1 t2 : List Nat)
    (h1 : lineLinesOf t1 ≠ []) (h2 : lineLinesOf t2 ≠ []) :
    plagiarism_score t1 t2 lineTag =
      { similarity_percentage := round2 (100 * ((lineCommon t1 t2 : ℚ) /
          ((max (lineLinesOf t1).length (lineLinesOf t2).length : Nat) : ℚ))),
        common_segments := lineCommon t1 t2,
        method := lineTag } := by
  have ht1 : t1 ≠ [] := fun h => h1 (by rw [h]; rfl)
  have ht2 : t2 ≠ [] := fun h => h2 (by rw [h]; rfl)
  rw [plagiarism_score, if_neg (by simp [ht1, ht2]), if_neg (by decide),
    if_neg (by decide), if_pos rfl]
  rw [line_based_similarity, if_neg (by simp [h1, h2])]
  have hmax : 0 < max (lineLinesOf t1).length (lineLinesOf t2).length :=
    lt_of_lt_of_le (List.length_pos.2 h1) (le_max_left _ _)
  rw [lineSim, if_pos hmax, mul_comm]

/-- Witness for C3: the claim's scenario — documents "Hello world\nFoo bar"
and "Hello world\nBaz qux" give similarity 50.0 with 1 common segment. -/
theorem C3_line_based_witness :
    plagiarism_score
        [72, 101, 108, 108, 111, 32, 119, 111, 114, 108, 100, 10, 70, 111, 111, 32, 98, 97, 114]
        [72, 101, 108, 108, 111, 32, 119, 111, 114, 108, 100, 10, 66, 97, 122, 32, 113, 117, 120]
        lineTag = ⟨50, 1, lineTag⟩ := by
  rw [C3_line_based _ _ (by decide) (by decide)]
  have hc : lineCommon
      [72, 101, 108, 108, 111, 32, 119, 111, 114, 108, 100, 10, 70, 111, 111, 32, 98, 97, 114]
      [72, 101, 108, 108, 111, 32, 119, 111, 114, 108, 100, 10, 66, 97, 122, 32, 113, 117, 120] =
      1 := by decide
  have hl1 : (lineLinesOf
      [72, 101, 108, 108, 111, 32, 119, 111, 114, 108, 100, 10, 70, 111, 111, 32, 98, 97, 114]).length =
      2 := by decide
  have hl2 : (lineLinesOf
      [72, 101, 108, 108, 111, 32, 119, 111, 114, 108, 100, 10, 66, 97, 122, 32, 113, 117, 120]).length =
      2 := by decide
  rw [hc, hl1, hl2]
  have hr : round2 (100 * (((1 : Nat) : ℚ) / ((max 2 2 : Nat) : ℚ))) = 50 := by
    rw [round2]
    norm_num
  rw [hr]

/-! ## Claim C9: range and rounding invariants of every result -/

theorem round2_zero : round2 0 = 0 := by
  rw [round2]
  norm_num

theorem round2_nonneg {q : ℚ} (h0 : 0 ≤ q) : 0 ≤ round2 q := by
  rw [round2]
  apply div_nonneg _ (by norm_num)
  have : (0 : ℤ) ≤ round (q * 100) := by
    rw [round_eq]
    apply Int.le_floor.2
    push_cast
    nlinarith
  exact_mod_cast this

theorem round2_le_100 {q : ℚ} (h1 : q ≤ 100) : round2 q ≤ 100 := by
  rw [round2]
  have hle : (round (q * 100) : ℚ) ≤ q * 100 + 1 / 2 := by
    rw [round_eq]
    exact Int.floor_le _
  have hlt : ((round (q * 100) : ℤ) : ℚ) < 10001 := by nlinarith
  have hz : round (q * 100) ≤ 10000 := by
    have h10 : round (q * 100) < 10001 := by exact_mod_cast hlt
    omega
  rw [div_le_iff₀ (by norm_num : (0:ℚ) < 100)]
  have h2 : ((round (q * 100) : ℤ) : ℚ) ≤ 10000 := by exact_mod_cast hz
  linarith

theorem round2_idem (q : ℚ) : round2 (round2 q) = round2 q := by
  rw [round2, round2, div_mul_cancel₀ _ (by norm_num : (100:ℚ) ≠ 0), round_intCast]

theorem ratio100_nonneg (a b : ℕ) : 0 ≤ ((a : ℚ) / (b : ℚ)) * 100 := by positivity

theorem ratio100_le_100 {a b : ℕ} (h : a ≤ b) : ((a : ℚ) / (b : ℚ)) * 100 ≤ 100 := by
  rcases Nat.eq_zero_or_pos b with rfl | hb
  · have : a = 0 := Nat.le_zero.1 h
    subst this
    norm_num
  · have hb' : (0:ℚ) < (b : ℚ) := by exact_mod_cast hb
    have h1 : (a : ℚ) / (b : ℚ) ≤ 1 := by
      rw [div_le_one hb']
      exact_mod_cast h
    nlinarith

/-- The bundle of invariants every strategy result satisfies. -/
def resultInvariant (r : ScoreResult) : Prop :=
  0 ≤ r.similarity_percentage ∧ r.similarity_percentage ≤ 100 ∧
    round2 r.similarity_percentage = r.similarity_percentage ∧
    0 ≤ r.common_segments

theorem resultInvariant_of_round2 {x : ℚ} (h0 : 0 ≤ x) (h1 : x ≤ 100)
    {n : Nat} {m : String} : resultInvariant ⟨round2 x, n, m⟩ :=
  ⟨round2_nonneg h0, round2_le_100 h1, round2_idem x, Nat.zero_le n⟩

theorem resultInvariant_zero {n : Nat} {m : String} : resultInvariant ⟨0, n, m⟩ :=
  ⟨le_refl 0, by norm_num, round2_zero, Nat.zero_le n⟩

theorem wordLineSim_nonneg (t1 t2 : List Nat) : 0 ≤ wordLineSim t1 t2 := by
  rw [wordLineSim]
  split
  · exact ratio100_nonneg _ _
  · exact le_refl 0

theorem wordSeqSim_nonneg (t1 t2 : List Nat) : 0 ≤ wordSeqSim t1 t2 := by
  rw [wordSeqSim]
  split
  · apply le_min (by norm_num)
    rw [wordAvgLen]
    positivity
  · exact le_refl 0

theorem wordOverlapSim_nonneg (t1 t2 : List Nat) : 0 ≤ wordOverlapSim t1 t2 := by
  rw [wordOverlapSim]
  split
  · exact ratio100_nonneg _ _
  · exact le_refl 0

theorem wordFinalSim_nonneg (t1 t2 : List Nat) : 0 ≤ wordFinalSim t1 t2 := by
  rw [wordFinalSim]
  split
  · exact add_nonneg (mul_nonneg (wordLineSim_nonneg t1 t2) (by norm_num))
      (mul_nonneg (wordSeqSim_nonneg t1 t2) (by norm_num))
  · exact le_trans (wordSeqSim_nonneg t1 t2) (le_max_left _ _)

theorem word_based_invariant (t1 t2 : List Nat) :
    resultInvariant (word_based_similarity t1 t2) := by
  rw [word_based_similarity]
  split
  · exact resultInvariant_zero
  · exact resultInvariant_of_round2
      (le_min (wordFinalSim_nonneg t1 t2) (by norm_num)) (min_le_right _ _)

theorem length_le_of_mem_charWindows {s1 sub : List Nat} (h : sub ∈ charWindows s1) :
    sub.length ≤ s1.length := by
  rw [charWindows] at h
  rcases List.mem_flatten.1 h with ⟨l, hl, hsub⟩
  rcases List.mem_map.1 hl with ⟨i, _, rfl⟩
  rcases List.mem_map.1 hsub with ⟨d, _, rfl⟩
  simp only [List.length_take, List.length_drop]
  omega

theorem foldl_max_length_le {B : Nat} :
    ∀ (l : List (List Nat)) (acc : Nat), acc ≤ B → (∀ x ∈ l, x.length ≤ B) →
      l.foldl (fun m x => max m x.length) acc ≤ B := by
  intro l
  induction l with
  | nil => intro acc ha _; exact ha
  | cons a l ih =>
    intro acc ha hall
    rw [List.foldl_cons]
    apply ih
    · exact max_le ha (hall a (List.mem_cons_self _ _))
    · intro x hx
      exact hall x (List.mem_cons_of_mem _ hx)

theorem charMaxLen_le (s1 s2 : List Nat) : charMaxLen s1 s2 ≤ s1.length := by
  apply foldl_max_length_le _ 0 (Nat.zero_le _)
  intro x hx
  exact length_le_of_mem_charWindows (List.mem_of_mem_filter hx)

theorem charMax_le (t1 t2 : List Nat) :
    charMax t1 t2 ≤ max (cleanOf t1).length (cleanOf t2).length := by
  rw [charMax]
  apply le_trans (charMaxLen_le _ _)
  rw [charShorter]
  split
  · exact le_max_right _ _
  · exact le_max_left _ _

theorem charSim_nonneg (t1 t2 : List Nat) : 0 ≤ charSim t1 t2 := by
  rw [charSim]
  split
  · exact ratio100_nonneg _ _
  · exact le_refl 0

theorem charSim_le_100 (t1 t2 : List Nat) : charSim t1 t2 ≤ 100 := by
  rw [charSim]
  split
  · exact ratio100_le_100 (charMax_le t1 t2)
  · norm_num

theorem char_based_invariant (t1 t2 : List Nat) :
    resultInvariant (char_based_similarity t1 t2) := by
  rw [char_based_similarity]
  split
  · exact resultInvariant_zero
  · exact resultInvariant_of_round2 (charSim_nonneg t1 t2) (charSim_le_100 t1 t2)

theorem lineCommon_le (t1 t2 : List Nat) :
    lineCommon t1 t2 ≤ max (lineLinesOf t1).length (lineLinesOf t2).length :=
  le_trans (List.countP_le_length _) (le_max_left _ _)

theorem lineSim_nonneg (t1 t2 : List Nat) : 0 ≤ lineSim t1 t2 := by
  rw [lineSim]
  split
  · exact ratio100_nonneg _ _
  · exact le_refl 0

theorem lineSim_le_100 (t1 t2 : List Nat) : lineSim t1 t2 ≤ 100 := by
  rw [lineSim]
  split
  · exact ratio100_le_100 (lineCommon_le t1 t2)
  · norm_num

theorem line_based_invariant (t1 t2 : List Nat) :
    resultInvariant (line_based_similarity t1 t2) := by
  rw [line_based_similarity]
  split
  · exact resultInvariant_zero
  · exact resultInvariant_of_round2 (lineSim_nonneg t1 t2) (lineSim_le_100 t1 t2)

/-- C9: for every pair of input texts and every method tag, the returned
similarity percentage lies in [0, 100] and is an exact 2-decimal value
(rounding it again does not change it), and the common-segment count is
non-negative. -/
theorem C9_result_invariants (t1 t2 : List Nat) (method : String) :
    0 ≤ (plagiarism_score t1 t2 method).similarity_percentage ∧
    (plagiarism_score t1 t2 method).similarity_percentage ≤ 100 ∧
    round2 (plagiarism_score t1 t2 method).similarity_percentage =
      (plagiarism_score t1 t2 method).similarity_percentage ∧
    0 ≤ (plagiarism_score t1 t2 method).common_segments := by
  rw [plagiarism_score]
  split
  · exact resultInvariant_zero
  · split
    · exact word_based_invariant t1 t2
    · split
      · exact char_based_invariant t1 t2
      · split
        · exact line_based_invariant t1 t2
        · exact word_based_invariant t1 t2

/-! ## Characterisation of the char-based window enumeration -/

theorem mem_charWindows_iff {s1 sub : List Nat} :
    sub ∈ charWindows s1 ↔
      ∃ i L, 5 ≤ L ∧ L < min 50 s1.length ∧ i + L ≤ s1.length ∧
        sub = (s1.drop i).take L := by
  rw [charWindows]
  simp only [List.mem_flatten, List.mem_map, List.mem_range]
  constructor
  · rintro ⟨l, ⟨i, hi, rfl⟩, hsub⟩
    rcases List.mem_map.1 hsub with ⟨d, hd, rfl⟩
    rw [List.mem_range] at hd
    exact ⟨i, d + 5, by omega, by omega, by omega, rfl⟩
  · rintro ⟨i, L, h5, hmc, hin, rfl⟩
    refine ⟨_, ⟨i, by omega, rfl⟩, ?_⟩
    apply List.mem_map.2
    refine ⟨L - 5, List.mem_range.2 (by omega), ?_⟩
    congr 1
    omega

theorem mem_charCommonSubs_iff {s1 s2 sub : List Nat} :
    sub ∈ charCommonSubs s1 s2 ↔ sub ∈ charWindows s1 ∧ sub <:+: s2 := by
  rw [charCommonSubs]
  simp [List.mem_filter]

theorem slice_isInfix (s : List Nat) (i L : Nat) : (s.drop i).take L <:+: s :=
  (List.take_prefix L (s.drop i)).isInfix.trans (List.drop_suffix i s).isInfix

theorem exists_slice_of_isInfix {u s : List Nat} (h : u <:+: s) :
    ∃ i, i + u.length ≤ s.length ∧ u = (s.drop i).take u.length := by
  rcases h with ⟨pre, post, hs⟩
  refine ⟨pre.length, ?_, ?_⟩
  · have := congrArg List.length hs
    simp [List.length_append] at this
    omega
  · rw [← hs, List.append_assoc, List.drop_left, List.take_left]

theorem mem_charCommonSubs_of_common {s1 s2 u : List Nat} (h5 : 5 ≤ u.length)
    (hlt : u.length < min 50 s1.length) (h1 : u <:+: s1) (h2 : u <:+: s2) :
    u ∈ charCommonSubs s1 s2 := by
  rw [mem_charCommonSubs_iff]
  refine ⟨?_, h2⟩
  rcases exists_slice_of_isInfix h1 with ⟨i, hin, hu⟩
  exact mem_charWindows_iff.2 ⟨i, u.length, h5, hlt, hin, hu⟩

theorem charCommonSubs_spec {s1 s2 sub : List Nat} (h : sub ∈ charCommonSubs s1 s2) :
    5 ≤ sub.length ∧ sub.length < min 50 s1.length ∧ sub <:+: s1 ∧ sub <:+: s2 := by
  rcases mem_charCommonSubs_iff.1 h with ⟨hw, hs2⟩
  rcases mem_charWindows_iff.1 hw with ⟨i, L, h5, hmc, hin, rfl⟩
  have hlen : ((s1.drop i).take L).length = L := by
    simp only [List.length_take, List.length_drop]
    omega
  rw [hlen]
  exact ⟨h5, hmc, slice_isInfix s1 i L, hs2⟩

theorem foldl_maxlen_ge_acc (l : List (List Nat)) :
    ∀ acc : Nat, acc ≤ l.foldl (fun m x => max m x.length) acc := by
  induction l with
  | nil => intro acc; exact le_refl acc
  | cons a l ih =>
    intro acc
    rw [List.foldl_cons]
    exact le_trans (le_max_left _ _) (ih _)

theorem foldl_maxlen_ge_mem {l : List (List Nat)} {x : List Nat} (h : x ∈ l) :
    ∀ acc : Nat, x.length ≤ l.foldl (fun m x => max m x.length) acc := by
  induction l with
  | nil => cases h
  | cons a l ih =>
    intro acc
    rw [List.foldl_cons]
    rcases List.mem_cons.1 h with rfl | h
    · exact le_trans (le_max_right _ _) (foldl_maxlen_ge_acc _ _)
    · exact ih h _

theorem foldl_maxlen_cases (l : List (List Nat)) :
    ∀ acc : Nat, l.foldl (fun m x => max m x.length) acc = acc ∨
      ∃ x ∈ l, x.length = l.foldl (fun m x => max m x.length) acc := by
  induction l with
  | nil => intro acc; exact Or.inl rfl
  | cons a l ih =>
    intro acc
    rw [List.foldl_cons]
    rcases ih (max acc a.length) with h | ⟨x, hx, hlen⟩
    · rw [h]
      rcases max_choice acc a.length with hm | hm
      · exact Or.inl hm
      · exact Or.inr ⟨a, List.mem_cons_self _ _, hm.symm⟩
    · exact Or.inr ⟨x, List.mem_cons_of_mem _ hx, hlen⟩

theorem le_charMaxLen {s1 s2 sub : List Nat} (h : sub ∈ charCommonSubs s1 s2) :
    sub.length ≤ charMaxLen s1 s2 :=
  foldl_maxlen_ge_mem h 0

theorem charMaxLen_cases (s1 s2 : List Nat) :
    charMaxLen s1 s2 = 0 ∨
      ∃ sub ∈ charCommonSubs s1 s2, sub.length = charMaxLen s1 s2 :=
  foldl_maxlen_cases _ 0

theorem charMaxLen_comm_of_length_eq {s1 s2 : List Nat} (h : s1.length = s2.length) :
    charMaxLen s1 s2 = charMaxLen s2 s1 := by
  have key : ∀ a b : List Nat, a.length = b.length → charMaxLen a b ≤ charMaxLen b a := by
    intro a b hab
    rcases charMaxLen_cases a b with h0 | ⟨u, hu, hlen⟩
    · rw [h0]
      exact Nat.zero_le _
    · rcases charCommonSubs_spec hu with ⟨h5, hmc, ha, hb⟩
      rw [← hlen]
      apply le_charMaxLen
      apply mem_charCommonSubs_of_common h5 _ hb ha
      rw [← hab]
      exact hmc
  exact le_antisymm (key s1 s2 h) (key s2 s1 h.symm)

theorem charMax_comm (t1 t2 : List Nat) : charMax t1 t2 = charMax t2 t1 := by
  rw [charMax, charMax, charShorter, charShorter, charLonger, charLonger]
  rcases lt_trichotomy (cleanOf t2).length (cleanOf t1).length with h | h | h
  · rw [if_pos h, if_pos h, if_neg (by omega), if_neg (by omega)]
  · rw [if_neg (by omega), if_neg (by omega), if_neg (by omega), if_neg (by omega)]
    exact charMaxLen_comm_of_length_eq (by omega)
  · rw [if_neg (by omega), if_neg (by omega), if_pos h, if_pos h]

theorem charSim_comm (t1 t2 : List Nat) : charSim t1 t2 = charSim t2 t1 := by
  rw [charSim, charSim, charMax_comm t1 t2,
    Nat.max_comm (cleanOf t1).length (cleanOf t2).length]

/-! ## Claim C4 -/

theorem word_sim_unfold {t1 t2 : List Nat} (h1 : wordsOf t1 ≠ []) (h2 : wordsOf t2 ≠ []) :
    (plagiarism_score t1 t2 wordTag).similarity_percentage =
      round2 (min (wordFinalSim t1 t2) 100) := by
  have ht1 : t1 ≠ [] := fun h => h1 (by rw [h]; rfl)
  have ht2 : t2 ≠ [] := fun h => h2 (by rw [h]; rfl)
  rw [plagiarism_score, if_neg (by simp [ht1, ht2]), if_pos rfl,
    word_based_similarity, if_neg (by simp [h1, h2])]

theorem line_sim_unfold {t1 t2 : List Nat} (h1 : lineLinesOf t1 ≠ [])
    (h2 : lineLinesOf t2 ≠ []) :
    (plagiarism_score t1 t2 lineTag).similarity_percentage = round2 (lineSim t1 t2) := by
  have ht1 : t1 ≠ [] := fun h => h1 (by rw [h]; rfl)
  have ht2 : t2 ≠ [] := fun h => h2 (by rw [h]; rfl)
  rw [plagiarism_score, if_neg (by simp [ht1, ht2]), if_neg (by decide),
    if_neg (by decide), if_pos rfl, line_based_similarity, if_neg (by simp [h1, h2])]

/-- C4 counterexample: neither the word_based nor the line_based score is
symmetric.  On the documents "x\nx" and "x\ny" the line-match count is 2
out of 2 one way but 1 out of 2 the other way, so word_based scores 70.0
versus 35.0 and line_based scores 100.0 versus 50.0. -/
theorem C4_counterexample :
    ((plagiarism_score [120, 10, 120] [120, 10, 121] wordTag).similarity_percentage ≠
      (plagiarism_score [120, 10, 121] [120, 10, 120] wordTag).similarity_percentage) ∧
    ((plagiarism_score [120, 10, 120] [120, 10, 121] lineTag).similarity_percentage ≠
      (plagiarism_score [120, 10, 121] [120, 10, 120] lineTag).similarity_percentage) := by
  constructor
  case right =>
    rw [line_sim_unfold (by decide) (by decide), line_sim_unfold (by decide) (by decide)]
    have f1 : lineSim [120, 10, 120] [120, 10, 121] = 100 := by
      rw [lineSim, if_pos (by decide : 0 < max (lineLinesOf [120, 10, 120]).length
        (lineLinesOf [120, 10, 121]).length)]
      rw [show lineCommon [120, 10, 120] [120, 10, 121] = 2 from by decide]
      rw [show (lineLinesOf [120, 10, 120]).length = 2 from by decide,
        show (lineLinesOf [120, 10, 121]).length = 2 from by decide]
      rw [show (max 2 2 : Nat) = 2 from rfl]
      norm_num
    have f2 : lineSim [120, 10, 121] [120, 10, 120] = 50 := by
      rw [lineSim, if_pos (by decide : 0 < max (lineLinesOf [120, 10, 121]).length
        (lineLinesOf [120, 10, 120]).length)]
      rw [show lineCommon [120, 10, 121] [120, 10, 120] = 1 from by decide]
      rw [show (lineLinesOf [120, 10, 121]).length = 2 from by decide,
        show (lineLinesOf [120, 10, 120]).length = 2 from by decide]
      rw [show (max 2 2 : Nat) = 2 from rfl]
      norm_num
    rw [f1, f2]
    rw [show round2 100 = 100 from by rw [round2]; norm_num,
      show round2 50 = 50 from by rw [round2]; norm_num]
    norm_num
  case left =>
    rw [word_sim_unfold (by decide) (by decide), word_sim_unfold (by decide) (by decide)]
    have e1 : wordFinalSim [120, 10, 120] [120, 10, 121] = 70 := by
      rw [wordFinalSim, if_pos (by decide : 0 < wordLineMatches [120, 10, 120] [120, 10, 121])]
      rw [wordLineSim, if_pos (by decide : 0 < wordLineMatches [120, 10, 120] [120, 10, 121])]
      rw [show wordLineMatches [120, 10, 120] [120, 10, 121] = 2 from by decide]
      rw [show (wordLinesOf [120, 10, 120]).length = 2 from by decide,
        show (wordLinesOf [120, 10, 121]).length = 2 from by decide]
      rw [wordSeqSim, if_neg (by decide : ¬ wordAccepted [120, 10, 120] [120, 10, 121] ≠ [])]
      rw [show (max 2 2 : Nat) = 2 from rfl]
      norm_num
    have e2 : wordFinalSim [120, 10, 121] [120, 10, 120] = 35 := by
      rw [wordFinalSim, if_pos (by decide : 0 < wordLineMatches [120, 10, 121] [120, 10, 120])]
      rw [wordLineSim, if_pos (by decide : 0 < wordLineMatches [120, 10, 121] [120, 10, 120])]
      rw [show wordLineMatches [120, 10, 121] [120, 10, 120] = 1 from by decide]
      rw [show (wordLinesOf [120, 10, 121]).length = 2 from by decide,
        show (wordLinesOf [120, 10, 120]).length = 2 from by decide]
      rw [wordSeqSim, if_neg (by decide : ¬ wordAccepted [120, 10, 121] [120, 10, 120] ≠ [])]
      rw [show (max 2 2 : Nat) = 2 from rfl]
      norm_num
    rw [e1, e2]
    rw [show min (70 : ℚ) 100 = 70 from by norm_num,
      show min (35 : ℚ) 100 = 35 from by norm_num]
    have r1 : round2 70 = 70 := by
      rw [round2]
      norm_num
    have r2 : round2 35 = 35 := by
      rw [round2]
      norm_num
    rw [r1, r2]
    norm_num

/-- C4 (amended): only the char_based similarity percentage is invariant
under swapping the two texts; word_based and line_based are not (their
line-match counts are directional, see the counterexample). -/
theorem C4_char_based_symmetric (t1 t2 : List Nat) :
    (plagiarism_score t1 t2 charTag).similarity_percentage =
      (plagiarism_score t2 t1 charTag).similarity_percentage := by
  have hcw : ¬ charTag = wordTag := by decide
  rw [plagiarism_score, plagiarism_score]
  by_cases h : t1 = [] ∨ t2 = []
  · rw [if_pos h, if_pos (Or.symm h)]
  · rw [if_neg h, if_neg (fun hh => h (Or.symm hh))]
    rw [if_neg hcw, if_pos rfl, if_neg hcw, if_pos rfl]
    rw [char_based_similarity, char_based_similarity]
    by_cases hc : cleanOf t1 = [] ∨ cleanOf t2 = []
    · rw [if_pos hc, if_pos (Or.symm hc)]
    · rw [if_neg hc, if_neg (fun hh => hc (Or.symm hh))]
      show round2 (charSim t1 t2) = round2 (charSim t2 t1)
      rw [charSim_comm]

/-! ## Claim C5 -/

/-- When the two cleaned texts share a common substring of length at least
50, the char-based run reports maximum match length exactly 49 (the
window's upper bound is exclusive), hence this similarity formula. -/
theorem char_sim_of_long_common (t1 t2 : List Nat)
    (h : ∃ u, 50 ≤ u.length ∧ u <:+: cleanOf t1 ∧ u <:+: cleanOf t2) :
    (plagiarism_score t1 t2 charTag).similarity_percentage =
      round2 ((49 : ℚ) /
        ((max (cleanOf t1).length (cleanOf t2).length : Nat) : ℚ) * 100) := by
  rcases h with ⟨u, h50, h1, h2⟩
  have hl1 : 50 ≤ (cleanOf t1).length := le_trans h50 h1.length_le
  have hl2 : 50 ≤ (cleanOf t2).length := le_trans h50 h2.length_le
  have hs1len : 50 ≤ (charShorter t1 t2).length := by
    rw [charShorter]
    split
    · exact hl2
    · exact hl1
  have hu1 : u <:+: charShorter t1 t2 := by
    rw [charShorter]
    split
    · exact h2
    · exact h1
  have hu2 : u <:+: charLonger t1 t2 := by
    rw [charLonger]
    split
    · exact h1
    · exact h2
  have htk : (u.take 49).length = 49 := length_take_of_le (by omega)
  have h49 : 49 ≤ charMax t1 t2 := by
    rw [charMax]
    have hmem : u.take 49 ∈ charCommonSubs (charShorter t1 t2) (charLonger t1 t2) := by
      apply mem_charCommonSubs_of_common
      · rw [htk]
        omega
      · rw [htk]
        omega
      · exact (List.take_prefix 49 u).isInfix.trans hu1
      · exact (List.take_prefix 49 u).isInfix.trans hu2
    have := le_charMaxLen hmem
    rwa [htk] at this
  have hle49 : charMax t1 t2 ≤ 49 := by
    rw [charMax]
    rcases charMaxLen_cases (charShorter t1 t2) (charLonger t1 t2) with h0 | ⟨sub, hsub, hlen⟩
    · rw [h0]
      exact Nat.zero_le _
    · rcases charCommonSubs_spec hsub with ⟨_, hmc, _, _⟩
      rw [← hlen]
      omega
  have hM : charMax t1 t2 = 49 := le_antisymm hle49 h49
  have hc1 : cleanOf t1 ≠ [] := by
    intro hh
    rw [hh] at hl1
    simp at hl1
  have hc2 : cleanOf t2 ≠ [] := by
    intro hh
    rw [hh] at hl2
    simp at hl2
  have ht1 : t1 ≠ [] := fun hh => hc1 (by rw [hh]; rfl)
  have ht2 : t2 ≠ [] := fun hh => hc2 (by rw [hh]; rfl)
  rw [plagiarism_score, if_neg (by simp [ht1, ht2]), if_neg (by decide), if_pos rfl]
  rw [char_based_similarity, if_neg (by simp [hc1, hc2])]
  show round2 (charSim t1 t2) = _
  rw [charSim, hM, if_pos (by norm_num : 0 < (49 : Nat))]
  norm_num

/-- C5 counterexample: on two copies of a 50-character text the claimed
formula gives round(50/50·100) = 100.0, but the code reports 98.0 (the
window enumerates substrings of length at most 49). -/
theorem C5_counterexample :
    (plagiarism_score (List.replicate 50 97) (List.replicate 50 97)
        charTag).similarity_percentage ≠
      round2 ((50 : ℚ) /
        ((max (cleanOf (List.replicate 50 97)).length
          (cleanOf (List.replicate 50 97)).length : Nat) : ℚ) * 100) := by
  rw [char_sim_of_long_common _ _
    ⟨List.replicate 50 97, by decide, by decide, by decide⟩]
  rw [show (cleanOf (List.replicate 50 97)).length = 50 from by decide]
  rw [show (max 50 50 : Nat) = 50 from rfl]
  have r1 : round2 ((49 : ℚ) / ((50 : ℕ) : ℚ) * 100) = 98 := by
    rw [round2]
    norm_num
  have r2 : round2 ((50 : ℚ) / ((50 : ℕ) : ℚ) * 100) = 100 := by
    rw [round2]
    norm_num
  rw [r1, r2]
  norm_num

/-- C5 (amended): for every pair of texts whose cleaned forms share a
common substring of length at least 50, the char_based maximum match
length is reported as 49 — the window bound `min(i + 50, len + 1)` is an
exclusive `range` end, so tested substrings are strictly shorter than the
50-cap — and the similarity is round(49 / max(|cleanedA|, |cleanedB|) ×
100, 2). -/
theorem C5_char_window_cap (t1 t2 : List Nat)
    (h : ∃ u, 50 ≤ u.length ∧ u <:+: cleanOf t1 ∧ u <:+: cleanOf t2) :
    charMax t1 t2 = 49 ∧
    (plagiarism_score t1 t2 charTag).similarity_percentage =
      round2 ((49 : ℚ) /
        ((max (cleanOf t1).length (cleanOf t2).length : Nat) : ℚ) * 100) := by
  constructor
  · rcases h with ⟨u, h50, h1, h2⟩
    have hl1 : 50 ≤ (cleanOf t1).length := le_trans h50 h1.length_le
    have hl2 : 50 ≤ (cleanOf t2).length := le_trans h50 h2.length_le
    have hs1len : 50 ≤ (charShorter t1 t2).length := by
      rw [charShorter]
      split
      · exact hl2
      · exact hl1
    have hu1 : u <:+: charShorter t1 t2 := by
      rw [charShorter]
      split
      · exact h2
      · exact h1
    have hu2 : u <:+: charLonger t1 t2 := by
      rw [charLonger]
      split
      · exact h1
      · exact h2
    have htk : (u.take 49).length = 49 := length_take_of_le (by omega)
    have h49 : 49 ≤ charMax t1 t2 := by
      rw [charMax]
      have hmem : u.take 49 ∈ charCommonSubs (charShorter t1 t2) (charLonger t1 t2) := by
        apply mem_charCommonSubs_of_common
        · rw [htk]
          omega
        · rw [htk]
          omega
        · exact (List.take_prefix 49 u).isInfix.trans hu1
        · exact (List.take_prefix 49 u).isInfix.trans hu2
      have := le_charMaxLen hmem
      rwa [htk] at this
    have hle49 : charMax t1 t2 ≤ 49 := by
      rw [charMax]
      rcases charMaxLen_cases (charShorter t1 t2) (charLonger t1 t2) with h0 | ⟨sub, hsub, hlen⟩
      · rw [h0]
        exact Nat.zero_le _
      · rcases charCommonSubs_spec hsub with ⟨_, hmc, _, _⟩
        rw [← hlen]
        omega
    exact le_antisymm hle49 h49
  · exact char_sim_of_long_common t1 t2 h

/-- Witness for C5 (amended) at two copies of a 50-character document:
the reported similarity is 98.0. -/
theorem C5_char_window_cap_witness :
    charMax (List.replicate 50 97) (List.replicate 50 97) = 49 ∧
    (plagiarism_score (List.replicate 50 97) (List.replicate 50 97)
        charTag).similarity_percentage = 98 := by
  have h := C5_char_window_cap (List.replicate 50 97) (List.replicate 50 97)
    ⟨List.replicate 50 97, by decide, by decide, by decide⟩
  refine ⟨h.1, ?_⟩
  rw [h.2]
  rw [show (cleanOf (List.replicate 50 97)).length = 50 from by decide]
  rw [show (max 50 50 : Nat) = 50 from rfl]
  rw [round2]
  norm_num

/-! ## Tokenisation and join lemmas -/

/-- A well-formed token list: every token is non-empty and whitespace-free,
as produced by Python `str.split()`. -/
def goodTokens (ws : List (List Nat)) : Prop :=
  ∀ w ∈ ws, w ≠ [] ∧ ∀ c ∈ w, isSpaceCode c = false

theorem splitWsAux_good : ∀ (s acc : List Nat), (∀ c ∈ acc, isSpaceCode c = false) →
    goodTokens (splitWsAux s acc) := by
  intro s
  induction s with
  | nil =>
    intro acc hacc
    rw [splitWsAux]
    split
    · intro w hw
      cases hw
    · next hne =>
      intro w hw
      rcases List.mem_cons.1 hw with rfl | hh
      · refine ⟨fun h => hne (by simpa using h), ?_⟩
        intro c hc
        exact hacc c (List.mem_reverse.1 hc)
      · cases hh
  | cons c cs ih =>
    intro acc hacc
    rw [splitWsAux]
    by_cases hsp : isSpaceCode c = true
    · rw [if_pos hsp]
      split
      · exact ih [] (by simp)
      · next hne =>
        intro w hw
        rcases List.mem_cons.1 hw with rfl | hh
        · refine ⟨fun h => hne (by simpa using h), ?_⟩
          intro d hd
          exact hacc d (List.mem_reverse.1 hd)
        · exact ih [] (by simp) w hh
    · rw [if_neg hsp]
      apply ih
      intro d hd
      rcases List.mem_cons.1 hd with rfl | hh
      · simpa using hsp
      · exact hacc d hh

theorem splitWs_good (s : List Nat) : goodTokens (splitWs s) :=
  splitWsAux_good s [] (by simp)

theorem splitWsAux_append_word : ∀ (w rest acc : List Nat),
    (∀ c ∈ w, isSpaceCode c = false) →
    splitWsAux (w ++ rest) acc = splitWsAux rest (w.reverse ++ acc) := by
  intro w
  induction w with
  | nil => intro rest acc _; simp
  | cons c w ih =>
    intro rest acc hw
    have hc : isSpaceCode c = false := hw c (List.mem_cons_self _ _)
    rw [List.cons_append, splitWsAux, if_neg (by rw [hc]; simp)]
    rw [ih rest (c :: acc) (fun d hd => hw d (List.mem_cons_of_mem _ hd))]
    congr 1
    simp

theorem splitWs_single {w : List Nat} (hne : w ≠ [])
    (hnsp : ∀ c ∈ w, isSpaceCode c = false) : splitWs w = [w] := by
  have hs := splitWsAux_append_word w [] [] hnsp
  rw [List.append_nil, List.append_nil] at hs
  rw [splitWs, hs, splitWsAux, if_neg (by simp [hne]), List.reverse_reverse]

/-- Splitting a space-join of well-formed tokens recovers the tokens. -/
theorem splitWs_joinSep (ws : List (List Nat)) (h : goodTokens ws) :
    splitWs (joinSep [32] ws) = ws := by
  induction ws with
  | nil => rfl
  | cons w ws ih =>
    rcases ws with _ | ⟨x, ws⟩
    · rcases h w (List.mem_cons_self _ _) with ⟨hne, hnsp⟩
      rw [joinSep]
      exact splitWs_single hne hnsp
    · rcases h w (List.mem_cons_self _ _) with ⟨hne, hnsp⟩
      have hrest : goodTokens (x :: ws) := fun v hv => h v (List.mem_cons_of_mem _ hv)
      rw [joinSep, List.append_assoc, splitWs, splitWsAux_append_word w _ [] hnsp]
      rw [List.singleton_append, splitWsAux, if_pos (show isSpaceCode 32 = true from rfl)]
      rw [List.append_nil, if_neg (by simp [hne]), List.reverse_reverse]
      rw [← splitWs, ih hrest]

theorem count32_token {w : List Nat} (h : ∀ c ∈ w, isSpaceCode c = false) :
    w.count 32 = 0 := by
  rw [List.count_eq_zero]
  intro hc
  have := h 32 hc
  simp [isSpaceCode] at this

theorem count32_joinSep (ws : List (List Nat)) (h : goodTokens ws) :
    (joinSep [32] ws).count 32 + 1 = ws.length + (if ws = [] then 1 else 0) := by
  induction ws with
  | nil => simp [joinSep]
  | cons w ws ih =>
    rcases ws with _ | ⟨x, ws⟩
    · rw [joinSep]
      rw [count32_token (h w (List.mem_cons_self _ _)).2]
      simp
    · have hrest : goodTokens (x :: ws) := fun v hv => h v (List.mem_cons_of_mem _ hv)
      rw [joinSep, List.append_assoc, List.count_append, List.count_append,
        count32_token (h w (List.mem_cons_self _ _)).2,
        show ([32] : List Nat).count 32 = 1 from by decide,
        if_neg (show ¬(w :: x :: ws = []) by simp)]
      have hx := ih hrest
      rw [if_neg (show ¬(x :: ws = []) by simp)] at hx
      simp only [List.length_cons] at *
      omega

theorem joinSep_ne_nil {ws : List (List Nat)} (h : goodTokens ws) (hne : ws ≠ []) :
    joinSep [32] ws ≠ [] := by
  rcases ws with _ | ⟨w, ws⟩
  · exact absurd rfl hne
  · rcases ws with _ | ⟨x, ws⟩
    · exact (h w (List.mem_cons_self _ _)).1
    · rw [joinSep]
      intro hh
      rcases List.append_eq_nil.1 hh with ⟨h1, _⟩
      rcases List.append_eq_nil.1 h1 with ⟨hw, _⟩
      exact (h w (List.mem_cons_self _ _)).1 hw

theorem joinSep_prefix_of_take (sep : List Nat) :
    ∀ (ws : List (List Nat)) (b : Nat), joinSep sep (ws.take b) <+: joinSep sep ws := by
  intro ws
  induction ws with
  | nil =>
    intro b
    rw [List.take_nil]
  | cons v ws ih =>
    intro b
    rcases b with _ | b
    · rw [List.take_zero]
      exact List.nil_prefix
    · rw [List.take_succ_cons]
      rcases ws with _ | ⟨x, ws⟩
      · rw [List.take_nil]
      · rcases b with _ | b
        · rw [List.take_zero, joinSep, joinSep]
          exact ⟨sep ++ joinSep sep (x :: ws), by simp [List.append_assoc]⟩
        · rw [List.take_succ_cons, joinSep, joinSep]
          rcases ih (b + 1) with ⟨c, hc⟩
          rw [List.take_succ_cons] at hc
          refine ⟨c, ?_⟩
          rw [List.append_assoc (v ++ sep) _ c, hc]

theorem joinSep_drop_suffix (sep : List Nat) :
    ∀ (ws : List (List Nat)) (a : Nat), joinSep sep (ws.drop a) <:+ joinSep sep ws := by
  intro ws
  induction ws with
  | nil =>
    intro a
    rw [List.drop_nil]
  | cons v ws ih =>
    intro a
    rcases a with _ | a
    · rw [List.drop_zero]
    · rw [List.drop_succ_cons]
      apply (ih a).trans
      rcases ws with _ | ⟨x, ws⟩
      · exact List.nil_suffix
      · rw [joinSep]
        exact ⟨v ++ sep, by simp [List.append_assoc]⟩

/-- The space-join of a contiguous sub-slice of the token stream is a
substring of the space-join of any enclosing slice. -/
theorem ngramAt_isInfix_of_nested {ws : List (List Nat)} {i L i' L' : Nat}
    (hii : i' ≤ i) (hnest : i + L ≤ i' + L') :
    ngramAt ws i L <:+: ngramAt ws i' L' := by
  rw [ngramAt, ngramAt]
  have hdrop : ws.drop i = (ws.drop i').drop (i - i') := by
    rw [List.drop_drop]
    congr 1
    omega
  have htake : (ws.drop i).take L = (((ws.drop i').take L').drop (i - i')).take L := by
    rw [hdrop, List.drop_take]
    rw [List.take_take, Nat.min_eq_left (by omega)]
  rw [htake]
  exact ((joinSep_prefix_of_take [32] _ L).isInfix).trans
    ((joinSep_drop_suffix [32] _ (i - i')).isInfix)

/-! ## Claim C6: coverage deduplication -/

/-- No member of the accepted set is a substring of a member with a
different separator count (hence with a different token count). -/
def noNest (fnd : List (List Nat)) : Prop :=
  ∀ s ∈ fnd, ∀ t ∈ fnd, s <:+: t → s.count 32 = t.count 32

/-- Every member so far is non-empty and has at least `L - 1` separators:
it was accepted during a pass of sequence length at least `L`. -/
def cntGE (L : Nat) (fnd : List (List Nat)) : Prop :=
  ∀ s ∈ fnd, L ≤ s.count 32 + 1 ∧ s ≠ []

theorem cntGE_mono {L L' : Nat} {fnd : List (List Nat)} (h : L' ≤ L) (hf : cntGE L fnd) :
    cntGE L' fnd := fun s hs => ⟨le_trans h (hf s hs).1, (hf s hs).2⟩

theorem count32_ngramAt {ws : List (List Nat)} (hgood : goodTokens ws) {i L : Nat}
    (h1 : 1 ≤ L) (hin : i + L ≤ ws.length) :
    (ngramAt ws i L).count 32 + 1 = L ∧ ngramAt ws i L ≠ [] := by
  have hsub : goodTokens ((ws.drop i).take L) := by
    intro w hw
    exact hgood w (List.mem_of_mem_drop (List.mem_of_mem_take hw))
  have hlen : ((ws.drop i).take L).length = L := by
    simp only [List.length_take, List.length_drop]
    omega
  have hne : (ws.drop i).take L ≠ [] := by
    intro h
    rw [h] at hlen
    simp at hlen
    omega
  have hcnt := count32_joinSep _ hsub
  rw [if_neg hne] at hcnt
  refine ⟨?_, ?_⟩
  · rw [ngramAt]
    omega
  · rw [ngramAt]
    exact joinSep_ne_nil hsub hne

theorem count_le_of_isInfix {s t : List Nat} (h : s <:+: t) (c : Nat) :
    s.count c ≤ t.count c :=
  h.sublist.count_le c

theorem seqPass_fold_invariant (w2j : List Nat) (ws : List (List Nat))
    (hgood : goodTokens ws) (L : Nat) (hL : 1 ≤ L) :
    ∀ (idx : List Nat) (fnd : List (List Nat)), (∀ i ∈ idx, i + L ≤ ws.length) →
      noNest fnd → cntGE L fnd →
      noNest (idx.foldl (fun fnd i =>
        let s := ngramAt ws i L
        if fnd.any fun f => decide (s <:+: f) then fnd
        else if kmp_search s w2j ≠ [] then fnd ++ [s]
        else fnd) fnd) ∧
      cntGE L (idx.foldl (fun fnd i =>
        let s := ngramAt ws i L
        if fnd.any fun f => decide (s <:+: f) then fnd
        else if kmp_search s w2j ≠ [] then fnd ++ [s]
        else fnd) fnd) := by
  intro idx
  induction idx with
  | nil => intro fnd _ hN hC; exact ⟨hN, hC⟩
  | cons i idx ih =>
    intro fnd hmem hN hC
    rw [List.foldl_cons]
    have hrest : ∀ j ∈ idx, j + L ≤ ws.length :=
      fun j hj => hmem j (List.mem_cons_of_mem _ hj)
    by_cases hany : (fnd.any fun f => decide (ngramAt ws i L <:+: f)) = true
    · simp only [hany, if_true]
      exact ih fnd hrest hN hC
    · simp only [hany, if_false]
      by_cases hk : kmp_search (ngramAt ws i L) w2j ≠ []
      · simp only [if_pos hk]
        have hnotin : ∀ f ∈ fnd, ¬ ngramAt ws i L <:+: f := by
          intro f hf hinf
          rw [List.any_eq_true] at hany
          exact hany ⟨f, hf, decide_eq_true hinf⟩
        have hc := count32_ngramAt hgood hL (hmem i (List.mem_cons_self _ _))
        apply ih
        · exact hrest
        · intro s hs t ht hinf
          rcases List.mem_append.1 hs with hs | hs
          · rcases List.mem_append.1 ht with ht | ht
            · exact hN s hs t ht hinf
            · have ht' : t = ngramAt ws i L := by simpa using ht
              subst ht'
              have h1 := count_le_of_isInfix hinf 32
              have h2 := (hC s hs).1
              omega
          · have hs' : s = ngramAt ws i L := by simpa using hs
            subst hs'
            rcases List.mem_append.1 ht with ht | ht
            · exact absurd hinf (hnotin t ht)
            · have ht' : t = ngramAt ws i L := by simpa using ht
              rw [ht']
        · intro s hs
          rcases List.mem_append.1 hs with hs | hs
          · exact hC s hs
          · have hs' : s = ngramAt ws i L := by simpa using hs
            subst hs'
            exact ⟨by omega, hc.2⟩
      · simp only [if_neg hk]
        exact ih fnd hrest hN hC

theorem seqPass_invariant (w2j : List Nat) (ws : List (List Nat))
    (hgood : goodTokens ws) (L : Nat) (hL : 1 ≤ L) (fnd : List (List Nat))
    (hN : noNest fnd) (hC : cntGE L fnd) :
    noNest (seqPass w2j ws L fnd) ∧ cntGE L (seqPass w2j ws L fnd) := by
  rw [seqPass]
  apply seqPass_fold_invariant w2j ws hgood L hL _ fnd _ hN hC
  intro i hi
  rw [List.mem_range] at hi
  omega

theorem wordAccepted_invariant (t1 t2 : List Nat) :
    noNest (wordAccepted t1 t2) ∧ cntGE 3 (wordAccepted t1 t2) := by
  rw [wordAccepted]
  simp only [List.foldl_cons, List.foldl_nil]
  have hgood : goodTokens (wordsOf t1) := splitWs_good _
  have i0N : noNest ([] : List (List Nat)) := by
    intro s hs
    cases hs
  have i0C : cntGE 8 ([] : List (List Nat)) := by
    intro s hs
    cases hs
  have h8 := seqPass_invariant (joinSep [32] (wordsOf t2)) (wordsOf t1) hgood 8
    (by norm_num) [] i0N i0C
  have h7 := seqPass_invariant (joinSep [32] (wordsOf t2)) (wordsOf t1) hgood 7
    (by norm_num) _ h8.1 (cntGE_mono (by norm_num) h8.2)
  have h6 := seqPass_invariant (joinSep [32] (wordsOf t2)) (wordsOf t1) hgood 6
    (by norm_num) _ h7.1 (cntGE_mono (by norm_num) h7.2)
  have h5 := seqPass_invariant (joinSep [32] (wordsOf t2)) (wordsOf t1) hgood 5
    (by norm_num) _ h6.1 (cntGE_mono (by norm_num) h6.2)
  have h4 := seqPass_invariant (joinSep [32] (wordsOf t2)) (wordsOf t1) hgood 4
    (by norm_num) _ h5.1 (cntGE_mono (by norm_num) h5.2)
  have h3 := seqPass_invariant (joinSep [32] (wordsOf t2)) (wordsOf t1) hgood 3
    (by norm_num) _ h4.1 (cntGE_mono (by norm_num) h4.2)
  exact h3

/-- C6 (amended): in a word_based run no accepted n-gram occupies a token
span properly nested inside the token span of another accepted n-gram:
if the n-gram over the enclosing span `[i', i'+L')` was accepted, the
n-gram over any strictly shorter contained span `[i, i+L)` is not.
(The char_based half of the original claim is false: that run performs no
containment deduplication at all — see the counterexample.) -/
theorem C6_no_nested_word_spans (t1 t2 : List Nat) (i L i' L' : Nat)
    (hii : i' ≤ i) (hnest : i + L ≤ i' + L') (hLL : L < L')
    (hb : i' + L' ≤ (wordsOf t1).length)
    (hacc : ngramAt (wordsOf t1) i' L' ∈ wordAccepted t1 t2) :
    ngramAt (wordsOf t1) i L ∉ wordAccepted t1 t2 := by
  intro hmem
  obtain ⟨hN, hC⟩ := wordAccepted_invariant t1 t2
  have hgood : goodTokens (wordsOf t1) := splitWs_good _
  rcases Nat.eq_zero_or_pos L with rfl | hL1
  · exact (hC _ hmem).2 rfl
  · have hc1 := count32_ngramAt hgood hL1 (by omega : i + L ≤ (wordsOf t1).length)
    have hc2 := count32_ngramAt hgood (by omega : 1 ≤ L') hb
    have hinf := @ngramAt_isInfix_of_nested (wordsOf t1) i L i' L' hii hnest
    have := hN _ hmem _ hacc hinf
    omega

/-- Witness for C6 (amended): in the self-comparison of "a b c d" the full
4-gram is accepted, so the nested 3-gram "a b c" is not accepted. -/
theorem C6_no_nested_word_spans_witness :
    ngramAt (wordsOf [97, 32, 98, 32, 99, 32, 100]) 0 3 ∉
      wordAccepted [97, 32, 98, 32, 99, 32, 100] [97, 32, 98, 32, 99, 32, 100] :=
  C6_no_nested_word_spans [97, 32, 98, 32, 99, 32, 100] [97, 32, 98, 32, 99, 32, 100]
    0 3 0 4 (le_refl 0) (by norm_num) (by norm_num) (by decide) (by decide)

/-- C6 counterexample: the char_based run counts nested segments.  On the
self-comparison of "abcdefg" both "bcdef" and "abcdef" are accepted, the
former strictly contained in the latter, and all 5 enumerated substrings
are counted as common segments. -/
theorem C6_counterexample :
    [98, 99, 100, 101, 102] ∈ charCommonSubs
      (charShorter [97, 98, 99, 100, 101, 102, 103] [97, 98, 99, 100, 101, 102, 103])
      (charLonger [97, 98, 99, 100, 101, 102, 103] [97, 98, 99, 100, 101, 102, 103]) ∧
    [97, 98, 99, 100, 101, 102] ∈ charCommonSubs
      (charShorter [97, 98, 99, 100, 101, 102, 103] [97, 98, 99, 100, 101, 102, 103])
      (charLonger [97, 98, 99, 100, 101, 102, 103] [97, 98, 99, 100, 101, 102, 103]) ∧
    [98, 99, 100, 101, 102] ≠ [97, 98, 99, 100, 101, 102] ∧
    [98, 99, 100, 101, 102] <:+: [97, 98, 99, 100, 101, 102] ∧
    (plagiarism_score [97, 98, 99, 100, 101, 102, 103] [97, 98, 99, 100, 101, 102, 103]
      charTag).common_segments = 5 := by
  decide

/-! ## Claim C2: the word-based combination formula -/

theorem wordSeqSim_eq (t1 t2 : List Nat) :
    wordSeqSim t1 t2 = min 100 (((wordSeqTotal t1 t2 : ℚ) / wordAvgLen t1 t2) * 100) := by
  rw [wordSeqSim]
  split
  · rfl
  · next h =>
    push_neg at h
    rw [wordSeqTotal, h]
    simp only [List.map_nil, List.sum_nil, Nat.cast_zero, zero_div, zero_mul]
    rw [min_eq_right (by norm_num : (0:ℚ) ≤ 100)]

theorem wordOverlapSim_eq (t1 t2 : List Nat) :
    wordOverlapSim t1 t2 = ((wordInter t1 t2 : ℚ) / (wordUnion t1 t2 : ℚ)) * 100 := by
  rw [wordOverlapSim]
  split
  · rfl
  · next h =>
    push_neg at h
    have hi0 : wordInter t1 t2 = 0 := by
      have hle : wordInter t1 t2 ≤ wordUnion t1 t2 :=
        Finset.card_le_card Finset.inter_subset_union
      omega
    rw [hi0, h]
    simp

theorem splitWsAux_eq_nil : ∀ (s acc : List Nat), splitWsAux s acc = [] →
    acc = [] ∧ ∀ c ∈ s, isSpaceCode c = true := by
  intro s
  induction s with
  | nil =>
    intro acc h
    rw [splitWsAux] at h
    split at h
    · next ha => exact ⟨ha, by simp⟩
    · cases h
  | cons c cs ih =>
    intro acc h
    rw [splitWsAux] at h
    split at h
    · next hsp =>
      split at h
      · next ha =>
        rcases ih [] h with ⟨_, hall⟩
        refine ⟨ha, ?_⟩
        intro d hd
        rcases List.mem_cons.1 hd with rfl | hd
        · exact hsp
        · exact hall d hd
      · cases h
    · next hsp =>
      rcases ih (c :: acc) h with ⟨ha, _⟩
      cases ha

theorem allspace_stripWs {s : List Nat} (h : ∀ c ∈ s, isSpaceCode c = true) :
    stripWs s = [] := by
  rw [stripWs]
  have h1 : s.dropWhile isSpaceCode = [] := by
    rw [List.dropWhile_eq_nil_iff]
    exact h
  rw [h1]
  rfl

theorem mem_of_mem_splitNl : ∀ (s : List Nat) (p : List Nat), p ∈ splitNl s →
    ∀ c ∈ p, c ∈ s := by
  intro s
  induction s with
  | nil =>
    intro p hp c hc
    rw [splitNl] at hp
    rcases List.mem_cons.1 hp with rfl | hh
    · cases hc
    · cases hh
  | cons a cs ih =>
    intro p hp c hc
    rw [splitNl] at hp
    split at hp
    · rcases List.mem_cons.1 hp with rfl | hh
      · cases hc
      · exact List.mem_cons_of_mem _ (ih p hh c hc)
    · rcases hsn : splitNl cs with _ | ⟨l, ls⟩
      · rw [hsn] at hp
        rcases List.mem_cons.1 hp with rfl | hh
        · rcases List.mem_cons.1 hc with rfl | hh
          · exact List.mem_cons_self _ _
          · cases hh
        · cases hh
      · rw [hsn] at hp
        rcases List.mem_cons.1 hp with rfl | hh
        · rcases List.mem_cons.1 hc with rfl | hh
          · exact List.mem_cons_self _ _
          · apply List.mem_cons_of_mem
            apply ih l _ c hh
            rw [hsn]
            exact List.mem_cons_self _ _
        · apply List.mem_cons_of_mem
          apply ih p _ c hc
          rw [hsn]
          exact List.mem_cons_of_mem _ hh

theorem mem_stripWs_sub {s : List Nat} : ∀ c ∈ stripWs s, c ∈ s := by
  intro c hc
  rw [stripWs, List.mem_reverse] at hc
  have h1 := (List.dropWhile_suffix isSpaceCode).sublist.subset hc
  rw [List.mem_reverse] at h1
  exact (List.dropWhile_suffix isSpaceCode).sublist.subset h1

theorem isSpaceCode_lowerCode (c : Nat) : isSpaceCode (lowerCode c) = isSpaceCode c := by
  rw [lowerCode]
  split
  · next h =>
    have hc : 65 ≤ c ∧ c ≤ 90 := by simpa using h
    have hA : isSpaceCode (c + 32) = false := by
      simp only [isSpaceCode, Bool.or_eq_false_iff, decide_eq_false_iff_not]
      omega
    have hB : isSpaceCode c = false := by
      simp only [isSpaceCode, Bool.or_eq_false_iff, decide_eq_false_iff_not]
      omega
    rw [hA, hB]
  · rfl

theorem wordsOf_nil_lines {t : List Nat} (h : wordsOf t = []) : wordLinesOf t = [] := by
  have hall : ∀ c ∈ lowerStr t, isSpaceCode c = true := (splitWsAux_eq_nil _ _ h).2
  have hallt : ∀ c ∈ t, isSpaceCode c = true := by
    intro c hc
    have := hall (lowerCode c) (List.mem_map_of_mem _ hc)
    rwa [isSpaceCode_lowerCode] at this
  rw [wordLinesOf]
  have hfil : (((splitNl (stripWs t)).map stripWs).filter fun l => l ≠ []) = [] := by
    rw [List.filter_eq_nil_iff]
    intro l hl
    rcases List.mem_map.1 hl with ⟨p, hp, rfl⟩
    simp only [ne_eq, decide_not, Bool.not_eq_true', decide_eq_false_iff_not, not_not]
    apply allspace_stripWs
    intro c hc
    exact hallt c (mem_stripWs_sub c (mem_of_mem_splitNl _ _ hp c hc))
  rw [hfil]
  rfl

theorem seqPass_of_big {w2j : List Nat} {ws : List (List Nat)} {L : Nat}
    {fnd : List (List Nat)} (h : ws.length + 1 ≤ L) : seqPass w2j ws L fnd = fnd := by
  rw [seqPass, show ws.length + 1 - L = 0 from by omega]
  rfl

theorem seqPass_nil_text (ws : List (List Nat)) (L : Nat) (fnd : List (List Nat)) :
    seqPass [] ws L fnd = fnd := by
  rw [seqPass]
  apply foldl_congr_fixed
  intro i _
  simp only []
  rw [kmp_search_nil (Or.inr rfl : ngramAt ws i L = [] ∨ ([] : List Nat) = [])]
  split
  · rfl
  · rw [if_neg (by simp)]

theorem wordAccepted_nil {t1 t2 : List Nat}
    (h : wordsOf t1 = [] ∨ wordsOf t2 = []) : wordAccepted t1 t2 = [] := by
  rw [wordAccepted]
  simp only [List.foldl_cons, List.foldl_nil]
  rcases h with h | h
  · rw [seqPass_of_big (by rw [h]; norm_num), seqPass_of_big (by rw [h]; norm_num),
      seqPass_of_big (by rw [h]; norm_num), seqPass_of_big (by rw [h]; norm_num),
      seqPass_of_big (by rw [h]; norm_num), seqPass_of_big (by rw [h]; norm_num)]
  · rw [h]
    rw [show joinSep [32] ([] : List (List Nat)) = [] from rfl]
    rw [seqPass_nil_text, seqPass_nil_text, seqPass_nil_text, seqPass_nil_text,
      seqPass_nil_text, seqPass_nil_text]

/-- C2: for non-empty texts under word_based, the similarity is
0.7·lineScore + 0.3·sequenceScore when some exact cleaned line of A occurs
among B's lines, and max(sequenceScore, wordOverlapScore) otherwise, with
sequenceScore = min(100, totalCommonWords / harmonicMean(|A|,|B|) × 100)
over the accepted n-grams, the result clamped to [0, 100] and rounded to
two decimals, and common_segments the number of accepted n-grams. -/
theorem C2_word_based_formula (t1 t2 : List Nat) (h1 : t1 ≠ []) (h2 : t2 ≠ []) :
    plagiarism_score t1 t2 wordTag =
      { similarity_percentage := round2 (min
          (if ∃ l ∈ wordLinesOf t1, l ∈ wordLinesOf t2 then
            ((wordLineMatches t1 t2 : ℚ) /
              ((max (wordLinesOf t1).length (wordLinesOf t2).length : Nat) : ℚ)) * 100
              * (7 / 10) +
            min 100 (((wordSeqTotal t1 t2 : ℚ) / wordAvgLen t1 t2) * 100) * (3 / 10)
          else
            max (min 100 (((wordSeqTotal t1 t2 : ℚ) / wordAvgLen t1 t2) * 100))
              (((wordInter t1 t2 : ℚ) / (wordUnion t1 t2 : ℚ)) * 100)) 100),
        common_segments := (wordAccepted t1 t2).length,
        method := wordTag } := by
  rw [plagiarism_score, if_neg (by simp [h1, h2]), if_pos rfl, word_based_similarity]
  by_cases hw : wordsOf t1 = [] ∨ wordsOf t2 = []
  · rw [if_pos hw]
    have hacc : wordAccepted t1 t2 = [] := wordAccepted_nil hw
    have hnoline : ¬ ∃ l ∈ wordLinesOf t1, l ∈ wordLinesOf t2 := by
      rintro ⟨l, hl, hl2⟩
      rcases hw with h | h
      · rw [wordsOf_nil_lines h] at hl
        cases hl
      · rw [wordsOf_nil_lines h] at hl2
        cases hl2
    have hinter : wordInter t1 t2 = 0 := by
      rcases hw with h | h
      · rw [wordInter, h]
        simp
      · rw [wordInter, h]
        simp
    have htot : wordSeqTotal t1 t2 = 0 := by
      rw [wordSeqTotal, hacc]
      rfl
    rw [if_neg hnoline, htot, hinter, hacc]
    have hval : max (min (100:ℚ) ((((0:ℕ) : ℚ) / wordAvgLen t1 t2) * 100))
        ((((0:ℕ) : ℚ) / (wordUnion t1 t2 : ℚ)) * 100) = 0 := by
      simp only [Nat.cast_zero, zero_div, zero_mul]
      rw [min_eq_right (by norm_num : (0:ℚ) ≤ 100), max_self]
    rw [hval, min_eq_left (by norm_num : (0:ℚ) ≤ 100), round2_zero]
    rfl
  · push_neg at hw
    rw [if_neg (by simp [hw.1, hw.2])]
    have hkey : wordFinalSim t1 t2 =
        (if ∃ l ∈ wordLinesOf t1, l ∈ wordLinesOf t2 then
          ((wordLineMatches t1 t2 : ℚ) /
            ((max (wordLinesOf t1).length (wordLinesOf t2).length : Nat) : ℚ)) * 100
            * (7 / 10) +
          min 100 (((wordSeqTotal t1 t2 : ℚ) / wordAvgLen t1 t2) * 100) * (3 / 10)
        else
          max (min 100 (((wordSeqTotal t1 t2 : ℚ) / wordAvgLen t1 t2) * 100))
            (((wordInter t1 t2 : ℚ) / (wordUnion t1 t2 : ℚ)) * 100)) := by
      rw [wordFinalSim]
      by_cases hex : ∃ l ∈ wordLinesOf t1, l ∈ wordLinesOf t2
      · have hpos : 0 < wordLineMatches t1 t2 := by
          rw [wordLineMatches, List.countP_pos_iff]
          rcases hex with ⟨l, hl, hl2⟩
          exact ⟨l, hl, by simpa using hl2⟩
        rw [if_pos hpos, if_pos hex, wordLineSim, if_pos hpos, wordSeqSim_eq]
      · have hpos : ¬ 0 < wordLineMatches t1 t2 := by
          rw [wordLineMatches, List.countP_pos_iff]
          rintro ⟨l, hl, hp⟩
          exact hex ⟨l, hl, by simpa using hp⟩
        rw [if_neg hpos, if_neg hex, wordSeqSim_eq, wordOverlapSim_eq]
    rw [hkey]

/-- Witness for C2 at the pair ("hi", "hi"): one matched line out of one,
no accepted n-grams (fewer than 3 tokens), score 0.7·100 + 0.3·0 = 70. -/
theorem C2_word_based_formula_witness :
    plagiarism_score [104, 105] [104, 105] wordTag = ⟨70, 0, wordTag⟩ := by
  rw [C2_word_based_formula _ _ (by decide) (by decide)]
  have hex : ∃ l ∈ wordLinesOf [104, 105], l ∈ wordLinesOf [104, 105] := by decide
  rw [if_pos hex]
  rw [show wordLineMatches [104, 105] [104, 105] = 1 from by decide]
  rw [show (wordLinesOf [104, 105]).length = 1 from by decide]
  rw [show wordSeqTotal [104, 105] [104, 105] = 0 from by decide]
  rw [show (wordAccepted [104, 105] [104, 105]).length = 0 from by decide]
  rw [show (max 1 1 : Nat) = 1 from rfl]
  rw [show ((1 : ℕ) : ℚ) = 1 from by norm_num, show ((0 : ℕ) : ℚ) = 0 from by norm_num]
  rw [zero_div, zero_mul, min_eq_right (by norm_num : (0:ℚ) ≤ 100), zero_mul, add_zero]
  rw [show (1:ℚ) / 1 * 100 * (7 / 10) = 70 from by norm_num]
  rw [min_eq_left (by norm_num : (70:ℚ) ≤ 100)]
  rw [show round2 70 = 70 from by rw [round2]; norm_num]

/-! ## Claim C7: self-comparison under word_based -/

theorem allspace_splitWs : ∀ s : List Nat, (∀ c ∈ s, isSpaceCode c = true) →
    splitWs s = [] := by
  intro s
  induction s with
  | nil => intro _; rfl
  | cons c cs ih =>
    intro h
    rw [splitWs, splitWsAux, if_pos (h c (List.mem_cons_self _ _)), if_pos rfl]
    exact ih fun d hd => h d (List.mem_cons_of_mem _ hd)

theorem hasNonspace_of_wordsOf_ne {t : List Nat} (h : wordsOf t ≠ []) :
    ∃ c ∈ t, isSpaceCode c = false := by
  by_contra hno
  push_neg at hno
  apply h
  rw [wordsOf]
  apply allspace_splitWs
  intro c hc
  rcases List.mem_map.1 hc with ⟨d, hd, rfl⟩
  rw [isSpaceCode_lowerCode]
  exact Bool.ne_false_iff.1 (hno d hd)

theorem mem_dropWhile_of_nonsat {p : Nat → Bool} :
    ∀ {l : List Nat} {x : Nat}, x ∈ l → p x = false → x ∈ l.dropWhile p := by
  intro l
  induction l with
  | nil => intro x hx _; cases hx
  | cons a l ih =>
    intro x hx hpx
    rw [List.dropWhile_cons]
    split
    · next hpa =>
      rcases List.mem_cons.1 hx with rfl | hx
      · rw [hpx] at hpa
        cases hpa
      · exact ih hx hpx
    · exact hx

theorem mem_stripWs_of_nonspace {s : List Nat} {c : Nat} (hc : c ∈ s)
    (hns : isSpaceCode c = false) : c ∈ stripWs s := by
  rw [stripWs, List.mem_reverse]
  apply mem_dropWhile_of_nonsat _ hns
  rw [List.mem_reverse]
  exact mem_dropWhile_of_nonsat hc hns

theorem exists_piece_splitNl : ∀ (s : List Nat) (c : Nat), c ∈ s → c ≠ 10 →
    ∃ p ∈ splitNl s, c ∈ p := by
  intro s
  induction s with
  | nil => intro c hc _; cases hc
  | cons a cs ih =>
    intro c hc h10
    rw [splitNl]
    by_cases ha : a = 10
    · rw [if_pos ha]
      rcases List.mem_cons.1 hc with rfl | hc
      · exact absurd ha h10
      · rcases ih c hc h10 with ⟨p, hp, hcp⟩
        exact ⟨p, List.mem_cons_of_mem _ hp, hcp⟩
    · rw [if_neg ha]
      rcases hsn : splitNl cs with _ | ⟨l, ls⟩
      · rcases List.mem_cons.1 hc with rfl | hc
        · exact ⟨[c], List.mem_cons_self _ _, List.mem_cons_self _ _⟩
        · rcases ih c hc h10 with ⟨p, hp, _⟩
          rw [hsn] at hp
          cases hp
      · rcases List.mem_cons.1 hc with rfl | hc
        · exact ⟨c :: l, List.mem_cons_self _ _, List.mem_cons_self _ _⟩
        · rcases ih c hc h10 with ⟨p, hp, hcp⟩
          rw [hsn] at hp
          rcases List.mem_cons.1 hp with rfl | hp
          · exact ⟨a :: p, List.mem_cons_self _ _, List.mem_cons_of_mem _ hcp⟩
          · exact ⟨p, List.mem_cons_of_mem _ hp, hcp⟩

theorem wordLinesOf_ne_nil {t : List Nat} (h : wordsOf t ≠ []) : wordLinesOf t ≠ [] := by
  rcases hasNonspace_of_wordsOf_ne h with ⟨c, hct, hcs⟩
  have h10 : c ≠ 10 := by
    intro hh
    rw [hh] at hcs
    cases hcs
  have hc1 : c ∈ stripWs t := mem_stripWs_of_nonspace hct hcs
  rcases exists_piece_splitNl (stripWs t) c hc1 h10 with ⟨p, hp, hcp⟩
  have hpne : stripWs p ≠ [] :=
    List.ne_nil_of_mem (mem_stripWs_of_nonspace hcp hcs)
  rw [wordLinesOf]
  intro hh
  rw [List.map_eq_nil_iff] at hh
  have hmem : stripWs p ∈ ((splitNl (stripWs t)).map stripWs).filter fun l => l ≠ [] :=
    List.mem_filter.2 ⟨List.mem_map_of_mem _ hp, by simpa using hpne⟩
  rw [hh] at hmem
  cases hmem

theorem ngramAt_zero_length (ws : List (List Nat)) :
    ngramAt ws 0 ws.length = joinSep [32] ws := by
  rw [ngramAt, List.drop_zero, List.take_length]

theorem seqPass_self {ws : List (List Nat)} (hgood : goodTokens ws) (hne : ws ≠ []) :
    seqPass (joinSep [32] ws) ws ws.length [] = [joinSep [32] ws] := by
  have hjne := joinSep_ne_nil hgood hne
  have hlp : 0 < ws.length := List.length_pos.2 hne
  rw [seqPass, show ws.length + 1 - ws.length = 1 from by omega,
    show List.range 1 = [0] from rfl]
  rw [List.foldl_cons, List.foldl_nil]
  simp only []
  rw [ngramAt_zero_length]
  rw [if_neg (by simp : ¬(List.any [] (fun f => decide (joinSep [32] ws <:+: f)) = true))]
  have hk : kmp_search (joinSep [32] ws) (joinSep [32] ws) ≠ [] := by
    rw [kmp_search_eq hjne hjne]
    apply List.ne_nil_of_mem
      ((@mem_occList (joinSep [32] ws) (joinSep [32] ws) hjne 0).2 ?_)
    rw [List.drop_zero, List.take_length]
  rw [if_pos hk, List.nil_append]

theorem seqPass_keep (w2j : List Nat) (ws : List (List Nat)) (L : Nat) :
    seqPass w2j ws L [joinSep [32] ws] = [joinSep [32] ws] := by
  rw [seqPass]
  apply foldl_congr_fixed
  intro i hi
  rw [List.mem_range] at hi
  have hinf : ngramAt ws i L <:+: joinSep [32] ws := by
    have h0 := @ngramAt_isInfix_of_nested ws i L 0 ws.length (by omega) (by omega)
    rwa [ngramAt_zero_length] at h0
  simp only []
  rw [if_pos (by simp [hinf] :
    (List.any [joinSep [32] ws] (fun f => decide (ngramAt ws i L <:+: f)) = true))]

theorem seqPass_of_big_at (w2j : List Nat) (ws : List (List Nat)) (L : Nat)
    (fnd : List (List Nat)) (h : ws.length + 1 ≤ L) : seqPass w2j ws L fnd = fnd :=
  seqPass_of_big h

theorem wordAccepted_self (t : List Nat) (h3 : 3 ≤ (wordsOf t).length)
    (h8 : (wordsOf t).length ≤ 8) :
    wordAccepted t t = [joinSep [32] (wordsOf t)] := by
  have hgood : goodTokens (wordsOf t) := splitWs_good _
  have hne : wordsOf t ≠ [] := by
    intro h
    rw [h] at h3
    simp at h3
  have hself := seqPass_self hgood hne
  rw [wordAccepted]
  simp only [List.foldl_cons, List.foldl_nil]
  obtain ⟨w, hw⟩ : ∃ w, (wordsOf t).length = w := ⟨_, rfl⟩
  rw [hw] at h3 h8 hself
  interval_cases w
  · rw [seqPass_of_big_at _ _ 8 _ (by omega), seqPass_of_big_at _ _ 7 _ (by omega),
      seqPass_of_big_at _ _ 6 _ (by omega), seqPass_of_big_at _ _ 5 _ (by omega),
      seqPass_of_big_at _ _ 4 _ (by omega), hself]
  · rw [seqPass_of_big_at _ _ 8 _ (by omega), seqPass_of_big_at _ _ 7 _ (by omega),
      seqPass_of_big_at _ _ 6 _ (by omega), seqPass_of_big_at _ _ 5 _ (by omega),
      hself, seqPass_keep]
  · rw [seqPass_of_big_at _ _ 8 _ (by omega), seqPass_of_big_at _ _ 7 _ (by omega),
      seqPass_of_big_at _ _ 6 _ (by omega), hself, seqPass_keep, seqPass_keep]
  · rw [seqPass_of_big_at _ _ 8 _ (by omega), seqPass_of_big_at _ _ 7 _ (by omega),
      hself, seqPass_keep, seqPass_keep, seqPass_keep]
  · rw [seqPass_of_big_at _ _ 8 _ (by omega), hself, seqPass_keep, seqPass_keep,
      seqPass_keep, seqPass_keep]
  · rw [hself, seqPass_keep, seqPass_keep, seqPass_keep, seqPass_keep, seqPass_keep]

/-- C7 counterexample: the claim fails for non-trivial but short texts.
The non-empty document "hi" compared with itself scores 70.0, not 100.0
(its single token admits no 3-to-8-token sequence, so the sequence score
is 0 and 0.7·100 + 0.3·0 = 70). -/
theorem C7_counterexample :
    (plagiarism_score [104, 105] [104, 105] wordTag).similarity_percentage ≠ 100 := by
  rw [word_sim_unfold (by decide) (by decide)]
  have e1 : wordFinalSim [104, 105] [104, 105] = 70 := by
    rw [wordFinalSim, if_pos (by decide : 0 < wordLineMatches [104, 105] [104, 105])]
    rw [wordLineSim, if_pos (by decide : 0 < wordLineMatches [104, 105] [104, 105])]
    rw [show wordLineMatches [104, 105] [104, 105] = 1 from by decide]
    rw [show (wordLinesOf [104, 105]).length = 1 from by decide]
    rw [wordSeqSim, if_neg (by decide : ¬ wordAccepted [104, 105] [104, 105] ≠ [])]
    rw [show (max 1 1 : Nat) = 1 from rfl]
    norm_num
  rw [e1, min_eq_left (by norm_num : (70:ℚ) ≤ 100)]
  rw [show round2 70 = 70 from by rw [round2]; norm_num]
  norm_num

/-- C7 (amended): for every document whose token stream has between 3 and
8 whitespace-separated words, comparing it with itself under word_based
yields similarity 100.0: the line-match phase saturates and the single
accepted n-gram (the full token stream) saturates the sequence score. -/
theorem C7_self_word_based (t : List Nat) (h3 : 3 ≤ (wordsOf t).length)
    (h8 : (wordsOf t).length ≤ 8) :
    (plagiarism_score t t wordTag).similarity_percentage = 100 := by
  have hwne : wordsOf t ≠ [] := by
    intro h
    rw [h] at h3
    simp at h3
  have hw0 : ((wordsOf t).length : ℚ) ≠ 0 := by
    rw [Nat.cast_ne_zero]
    omega
  rw [word_sim_unfold hwne hwne]
  have hlne : wordLinesOf t ≠ [] := wordLinesOf_ne_nil hwne
  have hmatch : wordLineMatches t t = (wordLinesOf t).length := by
    rw [wordLineMatches]
    apply List.countP_eq_length.2
    intro l hl
    simpa using hl
  have hpos : 0 < wordLineMatches t t := by
    rw [hmatch]
    exact List.length_pos.2 hlne
  have hl0 : ((wordLinesOf t).length : ℚ) ≠ 0 := by
    rw [Nat.cast_ne_zero]
    exact (List.length_pos.2 hlne).ne'
  have hlsim : wordLineSim t t = 100 := by
    rw [wordLineSim, if_pos hpos, hmatch, max_self, div_self hl0, one_mul]
  have hacc : wordAccepted t t = [joinSep [32] (wordsOf t)] := wordAccepted_self t h3 h8
  have htot : wordSeqTotal t t = (wordsOf t).length := by
    have hg : goodTokens (wordsOf t) := splitWs_good (lowerStr t)
    rw [wordSeqTotal, hacc, List.map_cons, List.map_nil, List.sum_cons, List.sum_nil]
    rw [splitWs_joinSep _ hg]
    omega
  have hssim : wordSeqSim t t = 100 := by
    rw [wordSeqSim, if_pos (by rw [hacc]; simp), htot, wordAvgLen]
    have harith : ((wordsOf t).length : ℚ) /
        (2 * ((wordsOf t).length : ℚ) * ((wordsOf t).length : ℚ) /
          (((wordsOf t).length : ℚ) + ((wordsOf t).length : ℚ))) * 100 = 100 := by
      field_simp
      ring
    rw [harith, min_self]
  rw [wordFinalSim, if_pos hpos, hlsim, hssim]
  rw [show (100:ℚ) * (7 / 10) + 100 * (3 / 10) = 100 from by norm_num, min_self]
  rw [round2]
  norm_num

/-- Witness for C7 (amended) at the 3-word document "a b c". -/
theorem C7_self_word_based_witness :
    (plagiarism_score [97, 32, 98, 32, 99] [97, 32, 98, 32, 99]
        wordTag).similarity_percentage = 100 :=
  C7_self_word_based [97, 32, 98, 32, 99] (by decide) (by decide)

end PlagiarismChecker
